import Mathlib

/-!
Verification of the `Permissionless` permission-resolution core
(`src/unnamed/part_000`, class `Permissionless`).

The development shallowly embeds the core's data model and operations:

* JS objects `config.roles` / `config.users` become association lists
  (`List (String × _)`) with first-match lookup (`lookupKey`); keys are
  unique in every configuration we construct.
* The three cache tiers of the class become explicit state: `cache`
  (role name to resolved permission list), `permissionCache`
  (decision cache).  `memoWildcardMatch` only memoizes compiled regexes
  and has no observable effect on results, so it is not part of the state.
* `fs`/network/Firestore/audit-log effects are external collaborators and
  are outside the embedded core, exactly as the spec scopes them.
* The `RegExp` built by `matchesWildcard` (`'^' + pattern.replace(/\*/g,'.*') + '$'`)
  is embedded as a token matcher: each source-pattern character becomes one
  regex unit (`*` to `.*`, `.` stays the regex any-character class, every
  other character a literal).  This is faithful for patterns whose
  characters are regex-literal, `.` or `*`; JS regex `.`/`.*` do not match
  line terminators, which the embedding mirrors.
* Thrown `PermissionlessError`s become `Except PErr`; the error constructor
  is chosen by the thrown message (`Role X not found`, `Circular inheritance
  detected in role: X`, `Role X does not exist`, `Cannot remove role X as it
  is inherited by roles: ...`, `Role X already exists`).
-/

deriving instance DecidableEq for Except

namespace Permissionless

/-- A role of the configuration: own permission strings plus an optional
list of parent role names (`inherits` may be absent in the JSON). -/
structure Role where
  permissions : List String
  inherits : Option (List String)
deriving DecidableEq

/-- Per-user override entry: optional explicit grants and denies. -/
structure UserOverride where
  permissions : Option (List String)
  denies : Option (List String)
deriving DecidableEq

/-- The validated in-memory configuration (`PermissionlessConfig`). -/
structure Config where
  roles : List (String × Role)
  users : Option (List (String × UserOverride))
deriving DecidableEq

/-- A user as consumed by the core.  The source type also allows extra
dynamic fields, but the core never reads them. -/
structure User where
  id : String
  role : String
deriving DecidableEq

/-- Error conditions thrown by the core, keyed by the thrown message. -/
inductive PErr where
  | roleNotFound (role : String)
  | circularInheritance (role : String)
  | roleAlreadyExists (role : String)
  | roleInUse (role : String) (dependents : List String)
deriving DecidableEq

/-- Association-list lookup, modelling JS object / `Map` key access. -/
def lookupKey {α : Type} (m : List (String × α)) (k : String) : Option α :=
  match m with
  | [] => none
  | kv :: rest => if kv.1 = k then some kv.2 else lookupKey rest k

/-- `Map.set`: overwrite an existing key in place, else append. -/
def mapSet {α : Type} (m : List (String × α)) (k : String) (v : α) : List (String × α) :=
  if (lookupKey m k).isSome then
    m.map (fun kv => if kv.1 = k then (k, v) else kv)
  else m ++ [(k, v)]

/-- One `Set.add`: append if not already present (JS insertion order). -/
def insertPerm (acc : List String) (p : String) : List String :=
  if p ∈ acc then acc else acc ++ [p]

/-- Add all of `ps` to the insertion-ordered set `acc`
(`ps.forEach (p => set.add p)`). -/
def dedupAppend (acc : List String) (ps : List String) : List String :=
  ps.foldl insertPerm acc

theorem lookupKey_mem {α : Type} (m : List (String × α)) (k : String) (v : α)
    (h : lookupKey m k = some v) : k ∈ m.map Prod.fst := by
  induction m with
  | nil => simp [lookupKey] at h
  | cons kv rest ih =>
    rw [lookupKey] at h
    by_cases hk : kv.1 = k
    · simp [hk]
    · simp only [hk, if_false] at h
      simp [ih h]

theorem mem_insertPerm (acc : List String) (p q : String) :
    q ∈ insertPerm acc p ↔ q ∈ acc ∨ q = p := by
  unfold insertPerm
  by_cases h : p ∈ acc
  · simp only [h, if_true]
    constructor
    · exact Or.inl
    · rintro (hq | rfl)
      · exact hq
      · exact h
  · simp [h]

theorem mem_dedupAppend (acc ps : List String) (q : String) :
    q ∈ dedupAppend acc ps ↔ q ∈ acc ∨ q ∈ ps := by
  induction ps generalizing acc with
  | nil => simp [dedupAppend]
  | cons p rest ih =>
    unfold dedupAppend at *
    simp only [List.foldl_cons]
    rw [ih (insertPerm acc p), mem_insertPerm]
    simp only [List.mem_cons]
    tauto

theorem lookupKey_append_none {α : Type} (m1 m2 : List (String × α)) (k : String)
    (h : lookupKey m1 k = none) : lookupKey (m1 ++ m2) k = lookupKey m2 k := by
  induction m1 with
  | nil => rfl
  | cons kv rest ih =>
    rw [lookupKey] at h
    by_cases hk : kv.1 = k
    · simp [hk] at h
    · rw [List.cons_append, lookupKey]
      simp only [hk, if_false] at h ⊢
      exact ih h

theorem lookupKey_append_some {α : Type} (m1 m2 : List (String × α)) (k : String)
    (v : α) (h : lookupKey m1 k = some v) : lookupKey (m1 ++ m2) k = some v := by
  induction m1 with
  | nil => rw [lookupKey] at h; cases h
  | cons kv rest ih =>
    rw [lookupKey] at h
    rw [List.cons_append, lookupKey]
    by_cases hk : kv.1 = k
    · simpa [hk] using h
    · simp only [hk, if_false] at h ⊢
      exact ih h

theorem lookupKey_overwriteMap {α : Type} (m : List (String × α)) (k x : String)
    (v : α) (hne : x ≠ k) :
    lookupKey (m.map (fun kv => if kv.1 = k then (k, v) else kv)) x = lookupKey m x := by
  induction m with
  | nil => rfl
  | cons kv rest ih =>
    rw [List.map_cons]
    by_cases hk : kv.1 = k
    · simp only [hk, if_true]
      rw [lookupKey, lookupKey]
      have hkx : ¬ (k = x) := fun hkx => hne hkx.symm
      have hkvx : ¬ (kv.1 = x) := by rw [hk]; exact hkx
      simp only [hkx, hkvx, if_false]
      exact ih
    · simp only [hk, if_false]
      rw [lookupKey, lookupKey]
      by_cases hkvx : kv.1 = x
      · simp [hkvx]
      · simp only [hkvx, if_false]
        exact ih

theorem lookupKey_mapSet_self {α : Type} (m : List (String × α)) (k : String) (v : α) :
    lookupKey (mapSet m k v) k = some v := by
  unfold mapSet
  by_cases h : (lookupKey m k).isSome
  · simp only [h, if_true]
    induction m with
    | nil => simp [lookupKey] at h
    | cons kv rest ih =>
      rw [List.map_cons]
      by_cases hk : kv.1 = k
      · simp only [hk, if_true]
        rw [lookupKey]
        simp
      · simp only [hk, if_false]
        rw [lookupKey]
        simp only [hk, if_false]
        rw [lookupKey] at h
        simp only [hk, if_false] at h
        exact ih h
  · rw [if_neg (by simpa using h)]
    rw [lookupKey_append_none m _ k (by simpa using h), lookupKey]
    simp

theorem lookupKey_mapSet_ne {α : Type} (m : List (String × α)) (k x : String) (v : α)
    (hne : x ≠ k) : lookupKey (mapSet m k v) x = lookupKey m x := by
  unfold mapSet
  by_cases h : (lookupKey m k).isSome
  · simp only [h, if_true]
    exact lookupKey_overwriteMap m k x v hne
  · rw [if_neg (by simpa using h)]
    rcases hx : lookupKey m x with _ | w
    · rw [lookupKey_append_none m _ x hx, lookupKey]
      have : ¬ (k = x) := fun hkx => hne hkx.symm
      simp [this, lookupKey]
    · exact lookupKey_append_some m _ x w hx

theorem lookupKey_mapSet_isSome {α : Type} (m : List (String × α)) (k x : String)
    (v : α) (h : (lookupKey m x).isSome) : (lookupKey (mapSet m k v) x).isSome := by
  by_cases hx : x = k
  · rw [hx, lookupKey_mapSet_self]
    rfl
  · rw [lookupKey_mapSet_ne m k x v hx]
    exact h

/-! ## Wildcard matcher (`matchesWildcard`, lines 192-202)

The source builds `new RegExp('^' + permission.replace(/\*/g, '.*') + '$')`
when the pattern contains `*`, else compares with `===`.  Characters other
than `*` are not escaped, so `.` keeps its regex meaning, and `.`/`.*`
never match a line terminator. -/

/-- One unit of the generated regex. -/
inductive RTok where
  | star
  | dot
  | lit (c : Char)
deriving DecidableEq

/-- JS regex line terminators, which `.` (and hence `.*`) never match. -/
def isLineTerm (c : Char) : Bool :=
  c == Char.ofNat 10 || c == Char.ofNat 13 ||
    c == Char.ofNat 0x2028 || c == Char.ofNat 0x2029

/-- Translate one source-pattern character to its regex unit:
`*` was replaced by `.*`, `.` stays the any-character class, anything else
is literal (faithful for patterns without further regex metacharacters). -/
def tokChar (c : Char) : RTok :=
  if c = '*' then .star else if c = '.' then .dot else .lit c

/-- `.*` of the generated regex: try the rest of the regex (`next`) at every
suffix reachable by skipping non-line-terminator characters. -/
def starRun (next : List Char → Bool) : List Char → Bool
  | [] => next []
  | c :: s' => next (c :: s') || (!isLineTerm c && starRun next s')

/-- Anchored matching of the generated regex against the requested string. -/
def reMatch : List RTok → List Char → Bool
  | [], s => s.isEmpty
  | .star :: ts, s => starRun (reMatch ts) s
  | .dot :: ts, s =>
    match s with
    | [] => false
    | c :: s' => !isLineTerm c && reMatch ts s'
  | .lit p :: ts, s =>
    match s with
    | [] => false
    | c :: s' => p == c && reMatch ts s'

/-- `matchesWildcard(permission, requested)`: regex test when the pattern
contains `*`, exact string equality otherwise. -/
def matchesWildcard (pattern requested : String) : Bool :=
  if '*' ∈ pattern.toList then
    reMatch (pattern.toList.map tokChar) requested.toList
  else pattern == requested

/-- A `*` under the spec's claimed semantics: try the rest of the pattern
at every suffix (any characters may be skipped). -/
def claimStar (next : List Char → Bool) : List Char → Bool
  | [] => next []
  | c :: s' => next (c :: s') || claimStar next s'

/-- The matcher semantics claimed by the spec, word for word: with no `*`
exact equality, else the non-`*` characters are literal and each `*`
consumes any run of zero or more characters. -/
def claimGlob : List Char → List Char → Bool
  | [], s => s.isEmpty
  | p :: ps, s =>
    if p = '*' then claimStar (claimGlob ps) s
    else
      match s with
      | [] => false
      | c :: s' => p == c && claimGlob ps s'

/-- Top level of the spec's claimed matcher semantics. -/
def claimMatches (pattern requested : String) : Bool :=
  if '*' ∈ pattern.toList then claimGlob pattern.toList requested.toList
  else pattern == requested

/-- Amended literal-glob semantics: as claimed, except that a `*` consumes
only characters that are not line terminators (JS `.*`). -/
def specGlobNL : List Char → List Char → Bool
  | [], s => s.isEmpty
  | p :: ps, s =>
    if p = '*' then starRun (specGlobNL ps) s
    else
      match s with
      | [] => false
      | c :: s' => p == c && specGlobNL ps s'

/-- Amended matcher semantics at the string level. -/
def specMatchesNL (pattern requested : String) : Bool :=
  if '*' ∈ pattern.toList then specGlobNL pattern.toList requested.toList
  else pattern == requested

/-- Regex metacharacters other than `*`: inside them the embedding of the
unescaped `RegExp` translation (and the claimed literal semantics) break. -/
def regexMetas : List Char :=
  [Char.ofNat 94, Char.ofNat 36, Char.ofNat 92, '.', '+', Char.ofNat 63,
   '(', ')', '[', ']', Char.ofNat 123, Char.ofNat 125, Char.ofNat 124]

/-- A pattern is plain when, besides `*`, it uses no regex metacharacter. -/
def plainPattern (pattern : String) : Prop :=
  ∀ c ∈ pattern.toList, c ∉ regexMetas

instance (pattern : String) : Decidable (plainPattern pattern) := by
  unfold plainPattern
  infer_instance

theorem starRun_congr (f g : List Char → Bool) (h : ∀ t, f t = g t) :
    ∀ s, starRun f s = starRun g s := by
  intro s
  induction s with
  | nil => simp [starRun, h]
  | cons c s' ih => simp [starRun, h, ih]

/-- On plain patterns the embedded regex matcher is the amended literal
glob: `*` tokens align and every other character is a literal. -/
theorem reMatch_eq_specGlobNL (ps : List Char) (hplain : ∀ ch ∈ ps, ch ∉ regexMetas) :
    ∀ s, reMatch (ps.map tokChar) s = specGlobNL ps s := by
  induction ps with
  | nil => intro s; rfl
  | cons p ps' ih =>
    intro s
    have hp := hplain p (List.mem_cons_self _ _)
    have hplain' : ∀ ch ∈ ps', ch ∉ regexMetas := fun ch hch =>
      hplain ch (List.mem_cons_of_mem _ hch)
    by_cases hstar : p = '*'
    · subst hstar
      rw [List.map_cons]
      have htok : tokChar '*' = RTok.star := rfl
      rw [htok]
      show starRun (reMatch (ps'.map tokChar)) s = specGlobNL ('*' :: ps') s
      have hrhs : specGlobNL ('*' :: ps') s = starRun (specGlobNL ps') s := by
        unfold specGlobNL
        simp
      rw [hrhs]
      exact starRun_congr _ _ (ih hplain') s
    · have hdot : p ≠ '.' := by
        intro hdot
        exact hp (by rw [hdot]; unfold regexMetas; simp)
      have htok : tokChar p = RTok.lit p := by
        unfold tokChar
        rw [if_neg hstar, if_neg hdot]
      rw [List.map_cons, htok]
      have hrhs : specGlobNL (p :: ps') s =
          match s with
          | [] => false
          | c :: s' => p == c && specGlobNL ps' s' := by
        conv_lhs => unfold specGlobNL
        rw [if_neg hstar]
      rw [hrhs]
      rcases s with _ | ⟨c, s'⟩
      · rfl
      · show (p == c && reMatch (ps'.map tokChar) s') = (p == c && specGlobNL ps' s')
        rw [ih hplain' s']

/-! ## Role-graph resolution (`getRolePermissions`, lines 155-190)

The source resolves a role by depth-first expansion with three pieces of
state: the persistent `this.cache` (role name to resolved list), the
per-top-level-call `visited` set that is shared (mutated in place) across
the whole call, and exceptions for a missing role or a cycle.

As reference denotation we use `NCb`: the same algorithm with no cache and
with a branch-scoped `visited`.  Theorems below show the cached,
shared-`visited` implementation agrees with it. -/

/-- The configuration's role names (`Object.keys(config.roles)`). -/
def roleNames (cfg : Config) : List String := cfg.roles.map Prod.fst

/-- Number of configured role names not yet visited: the termination
measure of the depth-first expansion. -/
def unvisitedCount (cfg : Config) (visited : List String) : Nat :=
  ((roleNames cfg).toFinset \ visited.toFinset).card

theorem unvisitedCount_cons_lt (cfg : Config) (visited : List String) (r : String)
    (hmem : r ∈ roleNames cfg) (hnv : r ∉ visited) :
    unvisitedCount cfg (r :: visited) < unvisitedCount cfg visited := by
  apply Finset.card_lt_card
  rw [Finset.ssubset_iff_of_subset]
  · refine ⟨r, ?_, ?_⟩
    · simp [Finset.mem_sdiff, List.mem_toFinset, hmem, hnv]
    · simp [Finset.mem_sdiff, List.mem_toFinset]
  · apply Finset.sdiff_subset_sdiff (le_refl _)
    intro x hx
    simp only [List.toFinset_cons, Finset.mem_insert]
    right
    exact hx

theorem unvisitedCount_le_of_subset (cfg : Config) (v w : List String)
    (h : ∀ x, x ∈ v → x ∈ w) :
    unvisitedCount cfg w ≤ unvisitedCount cfg v := by
  apply Finset.card_le_card
  apply Finset.sdiff_subset_sdiff (le_refl _)
  intro x hx
  rw [List.mem_toFinset] at hx ⊢
  exact h x hx

mutual

/-- Reference resolver: `getRolePermissions` with no cache and with a
branch-scoped `visited` set.  Check order follows the source: role
existence, then the cycle check, then own permissions seeded into an
insertion-ordered set, then each parent in order. -/
def NCb (cfg : Config) (visited : List String) (r : String) :
    Except PErr (List String) :=
  match h : lookupKey cfg.roles r with
  | none => .error (.roleNotFound r)
  | some role =>
    if hv : r ∈ visited then .error (.circularInheritance r)
    else NCbList cfg (r :: visited) (role.inherits.getD []) (dedupAppend [] role.permissions)
termination_by (unvisitedCount cfg visited, 0)
decreasing_by
  exact Prod.Lex.left _ _ (unvisitedCount_cons_lt cfg visited r (lookupKey_mem _ _ _ h) hv)

/-- Fold of the reference resolver over a role's `inherits` list,
accumulating the permission set. -/
def NCbList (cfg : Config) (visited : List String) (children : List String)
    (acc : List String) : Except PErr (List String) :=
  match children with
  | [] => .ok acc
  | c :: rest =>
    match NCb cfg visited c with
    | .error e => .error e
    | .ok ps => NCbList cfg visited rest (dedupAppend acc ps)
termination_by (unvisitedCount cfg visited, children.length + 1)
decreasing_by
  all_goals exact Prod.Lex.right _ (by simp only [List.length_cons]; omega)

end

/-- One inheritance edge of the role graph: `v` appears in the `inherits`
list of the existing role `u`. -/
def edge (cfg : Config) (u v : String) : Prop :=
  ∃ role, lookupKey cfg.roles u = some role ∧ v ∈ role.inherits.getD []

/-- Reflexive-transitive inheritance reachability. -/
def Reach (cfg : Config) (u v : String) : Prop :=
  Relation.ReflTransGen (edge cfg) u v

theorem NCb_missing (cfg : Config) (v : List String) (r : String)
    (h : lookupKey cfg.roles r = none) :
    NCb cfg v r = .error (.roleNotFound r) := by
  unfold NCb
  split
  · rfl
  · next role heq =>
    rw [h] at heq
    cases heq

theorem NCb_visited (cfg : Config) (v : List String) (r : String) (role : Role)
    (h : lookupKey cfg.roles r = some role) (hv : r ∈ v) :
    NCb cfg v r = .error (.circularInheritance r) := by
  unfold NCb
  split
  · next heq =>
    rw [h] at heq
    cases heq
  · next role1 heq =>
    rw [dif_pos hv]

theorem NCb_step (cfg : Config) (v : List String) (r : String) (role : Role)
    (h : lookupKey cfg.roles r = some role) (hv : r ∉ v) :
    NCb cfg v r =
      NCbList cfg (r :: v) (role.inherits.getD []) (dedupAppend [] role.permissions) := by
  unfold NCb
  split
  · next heq =>
    rw [h] at heq
    cases heq
  · next role1 heq =>
    rw [h] at heq
    cases heq
    rw [dif_neg hv]

theorem NCbList_nil (cfg : Config) (v : List String) (acc : List String) :
    NCbList cfg v [] acc = .ok acc := by
  unfold NCbList
  rfl

theorem NCbList_cons (cfg : Config) (v : List String) (c : String)
    (rest : List String) (acc : List String) :
    NCbList cfg v (c :: rest) acc =
      match NCb cfg v c with
      | .error e => .error e
      | .ok ps => NCbList cfg v rest (dedupAppend acc ps) := by
  conv =>
    lhs
    unfold NCbList

/-- Inversion of a successful resolver step. -/
theorem NCb_ok_elim (cfg : Config) (v : List String) (r : String) (ps : List String)
    (h : NCb cfg v r = .ok ps) :
    ∃ role, lookupKey cfg.roles r = some role ∧ r ∉ v ∧
      NCbList cfg (r :: v) (role.inherits.getD []) (dedupAppend [] role.permissions) = .ok ps := by
  rcases hlk : lookupKey cfg.roles r with _ | role
  · rw [NCb_missing cfg v r hlk] at h
    exact absurd h (by simp)
  · by_cases hv : r ∈ v
    · rw [NCb_visited cfg v r role hlk hv] at h
      exact absurd h (by simp)
    · rw [NCb_step cfg v r role hlk hv] at h
      exact ⟨role, by simp [hlk], hv, h⟩

/-- Every parent processed by a successful fold resolved successfully. -/
theorem NCbList_ok_child (cfg : Config) (v : List String) (ch : List String)
    (acc ps : List String) (h : NCbList cfg v ch acc = .ok ps) :
    ∀ c ∈ ch, ∃ pc, NCb cfg v c = .ok pc := by
  induction ch generalizing acc with
  | nil => intro c hc; simp at hc
  | cons c0 rest ih =>
    intro c hc
    rw [NCbList_cons] at h
    rcases hc0 : NCb cfg v c0 with e | pc0
    · rw [hc0] at h; simp at h
    · rw [hc0] at h
      simp only at h
      rcases List.mem_cons.mp hc with rfl | hc'
      · exact ⟨pc0, hc0⟩
      · exact ih (dedupAppend acc pc0) h c hc'

/-- The accumulator is contained in a successful fold's result. -/
theorem NCbList_acc_sub (cfg : Config) (v : List String) (ch : List String)
    (acc ps : List String) (h : NCbList cfg v ch acc = .ok ps) :
    ∀ q ∈ acc, q ∈ ps := by
  induction ch generalizing acc with
  | nil =>
    rw [NCbList_nil] at h
    intro q hq
    cases h
    exact hq
  | cons c0 rest ih =>
    rw [NCbList_cons] at h
    rcases hc0 : NCb cfg v c0 with e | pc0 <;> rw [hc0] at h
    · simp at h
    · simp only at h
      intro q hq
      exact ih (dedupAppend acc pc0) h q ((mem_dedupAppend _ _ _).mpr (Or.inl hq))

/-- A failing fold fails because some parent failed with the same error. -/
theorem NCbList_err (cfg : Config) (v : List String) (ch : List String)
    (acc : List String) (e : PErr) (h : NCbList cfg v ch acc = .error e) :
    ∃ c ∈ ch, NCb cfg v c = .error e := by
  induction ch generalizing acc with
  | nil => rw [NCbList_nil] at h; simp at h
  | cons c0 rest ih =>
    rw [NCbList_cons] at h
    rcases hc0 : NCb cfg v c0 with e0 | pc0 <;> rw [hc0] at h
    · simp only at h
      cases h
      exact ⟨c0, List.mem_cons_self _ _, hc0⟩
    · simp only at h
      rcases ih (dedupAppend acc pc0) h with ⟨c, hc, hcerr⟩
      exact ⟨c, List.mem_cons_of_mem _ hc, hcerr⟩

/-- Membership in a successful fold's result. -/
theorem NCbList_mem (cfg : Config) (v : List String) (ch : List String)
    (acc ps : List String) (h : NCbList cfg v ch acc = .ok ps) (q : String) :
    q ∈ ps ↔ q ∈ acc ∨ ∃ c ∈ ch, ∃ pc, NCb cfg v c = .ok pc ∧ q ∈ pc := by
  induction ch generalizing acc with
  | nil =>
    rw [NCbList_nil] at h
    cases h
    simp
  | cons c0 rest ih =>
    rw [NCbList_cons] at h
    rcases hc0 : NCb cfg v c0 with e0 | pc0 <;> rw [hc0] at h
    · simp at h
    · simp only at h
      rw [ih (dedupAppend acc pc0) h, mem_dedupAppend]
      constructor
      · rintro ((hq | hq) | ⟨c, hc, pc, hok, hq⟩)
        · exact Or.inl hq
        · exact Or.inr ⟨c0, List.mem_cons_self _ _, pc0, hc0, hq⟩
        · exact Or.inr ⟨c, List.mem_cons_of_mem _ hc, pc, hok, hq⟩
      · rintro (hq | ⟨c, hc, pc, hok, hq⟩)
        · exact Or.inl (Or.inl hq)
        · rcases List.mem_cons.mp hc with rfl | hc'
          · rw [hc0] at hok
            cases hok
            exact Or.inl (Or.inr hq)
          · exact Or.inr ⟨c, hc', pc, hok, hq⟩

theorem edge_of_inherits (cfg : Config) (r c : String) (role : Role)
    (h : lookupKey cfg.roles r = some role) (hc : c ∈ role.inherits.getD []) :
    edge cfg r c :=
  ⟨role, h, hc⟩

theorem unvisitedCount_pos (cfg : Config) (v : List String) (r : String)
    (hmem : r ∈ roleNames cfg) (hnv : r ∉ v) :
    0 < unvisitedCount cfg v := by
  apply Finset.card_pos.mpr
  refine ⟨r, ?_⟩
  simp [Finset.mem_sdiff, List.mem_toFinset, hmem, hnv]

/-- Every role reachable from a successfully resolved role also resolves
successfully (under some extended visited set). -/
theorem NCb_reach_ok (cfg : Config) (v : List String) (r : String) (ps : List String)
    (hok : NCb cfg v r = .ok ps) (m : String) (hr : Reach cfg r m) :
    ∃ w pm, NCb cfg w m = .ok pm ∧ (∀ x ∈ v, x ∈ w) := by
  induction hr with
  | refl => exact ⟨v, ps, hok, fun x hx => hx⟩
  | tail hab hbc ih =>
    rcases ih with ⟨w, pb, hbok, hsub⟩
    rcases NCb_ok_elim _ _ _ _ hbok with ⟨role, hlk, hbv, hlist⟩
    rcases hbc with ⟨role1, hlk1, hcmem⟩
    rw [hlk] at hlk1
    cases hlk1
    rcases NCbList_ok_child _ _ _ _ _ hlist _ hcmem with ⟨pm, hmok⟩
    exact ⟨_ :: w, pm, hmok, fun x hx => List.mem_cons_of_mem _ (hsub x hx)⟩

/-- Every role reachable from a successfully resolved role exists. -/
theorem NCb_ok_present (cfg : Config) (v : List String) (r : String) (ps : List String)
    (hok : NCb cfg v r = .ok ps) (m : String) (hr : Reach cfg r m) :
    (lookupKey cfg.roles m).isSome := by
  rcases NCb_reach_ok cfg v r ps hok m hr with ⟨w, pm, hmok, _⟩
  rcases NCb_ok_elim _ _ _ _ hmok with ⟨role, hlk, _, _⟩
  rw [hlk]
  rfl

/-- A successfully resolved role lies on no inheritance cycle. -/
theorem NCb_ok_no_cycle (cfg : Config) (v : List String) (r : String) (ps : List String)
    (hok : NCb cfg v r = .ok ps) :
    ¬ Relation.TransGen (edge cfg) r r := by
  intro hcyc
  rcases Relation.TransGen.head'_iff.mp hcyc with ⟨c, hrc, hcr⟩
  rcases NCb_ok_elim _ _ _ _ hok with ⟨role, hlk, hv, hlist⟩
  rcases hrc with ⟨role1, hlk1, hcmem⟩
  rw [hlk] at hlk1
  cases hlk1
  rcases NCbList_ok_child _ _ _ _ _ hlist _ hcmem with ⟨pc, hcok⟩
  rcases NCb_reach_ok cfg (r :: v) c pc hcok r hcr with ⟨w, pr, hrok, hsub⟩
  rcases NCb_ok_elim _ _ _ _ hrok with ⟨role2, _, hrw, _⟩
  exact hrw (hsub r (List.mem_cons_self _ _))

/-- Transfer a successful fold to another visited set, given a transfer
for each individual parent. -/
theorem NCbList_transfer (cfg : Config) (va vb : List String) (ch : List String)
    (hch : ∀ c ∈ ch, ∀ pc, NCb cfg va c = .ok pc → NCb cfg vb c = .ok pc) :
    ∀ acc ps, NCbList cfg va ch acc = .ok ps → NCbList cfg vb ch acc = .ok ps := by
  induction ch with
  | nil =>
    intro acc ps h
    rw [NCbList_nil] at h ⊢
    exact h
  | cons c0 rest ih =>
    intro acc ps h
    rw [NCbList_cons] at h
    rcases hc0 : NCb cfg va c0 with e0 | pc0 <;> rw [hc0] at h
    · simp at h
    · simp only at h
      have hc0b := hch c0 (List.mem_cons_self _ _) pc0 hc0
      rw [NCbList_cons, hc0b]
      exact ih (fun c hc pc => hch c (List.mem_cons_of_mem _ hc) pc) _ _ h

/-- A successful resolution is insensitive to visited-set entries that are
not reachable from the resolved role. -/
theorem NCb_mono_aux (cfg : Config) :
    ∀ n v1 r ps v2, unvisitedCount cfg v1 ≤ n →
      NCb cfg v1 r = .ok ps →
      (∀ x ∈ v2, x ∈ v1 ∨ ¬ Reach cfg r x) →
      NCb cfg v2 r = .ok ps := by
  intro n
  induction n with
  | zero =>
    intro v1 r ps v2 hn hok _
    rcases NCb_ok_elim _ _ _ _ hok with ⟨role, hlk, hv1, _⟩
    have hpos := unvisitedCount_pos cfg v1 r (lookupKey_mem _ _ _ hlk) hv1
    omega
  | succ n ih =>
    intro v1 r ps v2 hn hok hcond
    rcases NCb_ok_elim _ _ _ _ hok with ⟨role, hlk, hv1, hlist⟩
    have hr2 : r ∉ v2 := by
      intro hmem
      rcases hcond r hmem with h | h
      · exact hv1 h
      · exact h Relation.ReflTransGen.refl
    rw [NCb_step cfg v2 r role hlk hr2]
    refine NCbList_transfer cfg (r :: v1) (r :: v2) _ ?_ _ _ hlist
    intro c hc pc hcok
    have hmeas : unvisitedCount cfg (r :: v1) ≤ n := by
      have hlt := unvisitedCount_cons_lt cfg v1 r (lookupKey_mem _ _ _ hlk) hv1
      omega
    refine ih (r :: v1) c pc (r :: v2) hmeas hcok ?_
    intro x hx
    rcases List.mem_cons.mp hx with rfl | hx2
    · exact Or.inl (List.mem_cons_self _ _)
    · rcases hcond x hx2 with hxv | hnr
      · exact Or.inl (List.mem_cons_of_mem _ hxv)
      · refine Or.inr ?_
        intro hcx
        exact hnr (Relation.ReflTransGen.head (edge_of_inherits cfg r c role hlk hc) hcx)

/-- A successful resolution is insensitive to visited-set entries that are
not reachable from the resolved role (public form). -/
theorem NCb_mono (cfg : Config) (v1 : List String) (r : String) (ps : List String)
    (hok : NCb cfg v1 r = .ok ps) (v2 : List String)
    (hcond : ∀ x ∈ v2, x ∈ v1 ∨ ¬ Reach cfg r x) :
    NCb cfg v2 r = .ok ps :=
  NCb_mono_aux cfg (unvisitedCount cfg v1) v1 r ps v2 (le_refl _) hok hcond

/-- A `RoleNotFound` failure names a reachable, absent role. -/
theorem NCb_err_notFound (cfg : Config) :
    ∀ n v r m, unvisitedCount cfg v ≤ n →
      NCb cfg v r = .error (.roleNotFound m) →
      lookupKey cfg.roles m = none ∧ Reach cfg r m := by
  intro n
  induction n with
  | zero =>
    intro v r m hn herr
    rcases hlk : lookupKey cfg.roles r with _ | role
    · rw [NCb_missing cfg v r hlk] at herr
      cases herr
      exact ⟨hlk, Relation.ReflTransGen.refl⟩
    · by_cases hv : r ∈ v
      · rw [NCb_visited cfg v r role hlk hv] at herr
        cases herr
      · have hpos := unvisitedCount_pos cfg v r (lookupKey_mem _ _ _ hlk) hv
        omega
  | succ n ih =>
    intro v r m hn herr
    rcases hlk : lookupKey cfg.roles r with _ | role
    · rw [NCb_missing cfg v r hlk] at herr
      cases herr
      exact ⟨hlk, Relation.ReflTransGen.refl⟩
    · by_cases hv : r ∈ v
      · rw [NCb_visited cfg v r role hlk hv] at herr
        cases herr
      · rw [NCb_step cfg v r role hlk hv] at herr
        rcases NCbList_err _ _ _ _ _ herr with ⟨c, hc, hcerr⟩
        have hmeas : unvisitedCount cfg (r :: v) ≤ n := by
          have hlt := unvisitedCount_cons_lt cfg v r (lookupKey_mem _ _ _ hlk) hv
          omega
        rcases ih (r :: v) c m hmeas hcerr with ⟨hm, hreach⟩
        exact ⟨hm, Relation.ReflTransGen.head (edge_of_inherits cfg r c role hlk hc) hreach⟩

/-- A `CircularInheritance` failure names a reachable role that lies on a
cycle or was already in the initial visited set. -/
theorem NCb_err_circular (cfg : Config) :
    ∀ n v r x, unvisitedCount cfg v ≤ n →
      NCb cfg v r = .error (.circularInheritance x) →
      Reach cfg r x ∧ (Relation.TransGen (edge cfg) x x ∨ x ∈ v) := by
  intro n
  induction n with
  | zero =>
    intro v r x hn herr
    rcases hlk : lookupKey cfg.roles r with _ | role
    · rw [NCb_missing cfg v r hlk] at herr
      cases herr
    · by_cases hv : r ∈ v
      · rw [NCb_visited cfg v r role hlk hv] at herr
        cases herr
        exact ⟨Relation.ReflTransGen.refl, Or.inr hv⟩
      · have hpos := unvisitedCount_pos cfg v r (lookupKey_mem _ _ _ hlk) hv
        omega
  | succ n ih =>
    intro v r x hn herr
    rcases hlk : lookupKey cfg.roles r with _ | role
    · rw [NCb_missing cfg v r hlk] at herr
      cases herr
    · by_cases hv : r ∈ v
      · rw [NCb_visited cfg v r role hlk hv] at herr
        cases herr
        exact ⟨Relation.ReflTransGen.refl, Or.inr hv⟩
      · rw [NCb_step cfg v r role hlk hv] at herr
        rcases NCbList_err _ _ _ _ _ herr with ⟨c, hc, hcerr⟩
        have hmeas : unvisitedCount cfg (r :: v) ≤ n := by
          have hlt := unvisitedCount_cons_lt cfg v r (lookupKey_mem _ _ _ hlk) hv
          omega
        rcases ih (r :: v) c x hmeas hcerr with ⟨hreach, hcase⟩
        have hedge := edge_of_inherits cfg r c role hlk hc
        refine ⟨Relation.ReflTransGen.head hedge hreach, ?_⟩
        rcases hcase with hcyc | hxin
        · exact Or.inl hcyc
        · rcases List.mem_cons.mp hxin with rfl | hxv
          · exact Or.inl (Relation.TransGen.head' hedge hreach)
          · exact Or.inr hxv

/-- The permissions of a successfully resolved role are exactly the own
permissions of the roles reachable from it. -/
theorem NCb_mem (cfg : Config) :
    ∀ n v r ps, unvisitedCount cfg v ≤ n →
      NCb cfg v r = .ok ps →
      ∀ q, q ∈ ps ↔
        ∃ m, Reach cfg r m ∧ ∃ role, lookupKey cfg.roles m = some role ∧
          q ∈ role.permissions := by
  intro n
  induction n with
  | zero =>
    intro v r ps hn hok
    rcases NCb_ok_elim _ _ _ _ hok with ⟨role, hlk, hv, _⟩
    have hpos := unvisitedCount_pos cfg v r (lookupKey_mem _ _ _ hlk) hv
    omega
  | succ n ih =>
    intro v r ps hn hok q
    rcases NCb_ok_elim _ _ _ _ hok with ⟨role, hlk, hv, hlist⟩
    have hmeas : unvisitedCount cfg (r :: v) ≤ n := by
      have hlt := unvisitedCount_cons_lt cfg v r (lookupKey_mem _ _ _ hlk) hv
      omega
    rw [NCbList_mem _ _ _ _ _ hlist q, mem_dedupAppend]
    constructor
    · rintro ((hq | hq) | ⟨c, hc, pc, hcok, hq⟩)
      · simp at hq
      · exact ⟨r, Relation.ReflTransGen.refl, role, hlk, hq⟩
      · rcases (ih (r :: v) c pc hmeas hcok q).mp hq with ⟨m, hreach, rolem, hlkm, hqm⟩
        exact ⟨m, Relation.ReflTransGen.head (edge_of_inherits cfg r c role hlk hc) hreach,
          rolem, hlkm, hqm⟩
    · rintro ⟨m, hreach, rolem, hlkm, hqm⟩
      rcases Relation.ReflTransGen.cases_head hreach with rfl | ⟨c, hrc, hcm⟩
      · rw [hlk] at hlkm
        cases hlkm
        exact Or.inl (Or.inr hqm)
      · rcases hrc with ⟨role1, hlk1, hcmem⟩
        rw [hlk] at hlk1
        cases hlk1
        rcases NCbList_ok_child _ _ _ _ _ hlist _ hcmem with ⟨pc, hcok⟩
        refine Or.inr ⟨_, hcmem, pc, hcok, ?_⟩
        exact (ih (r :: v) _ pc hmeas hcok q).mpr ⟨m, hcm, rolem, hlkm, hqm⟩

/-- The persistent role-resolution cache `this.cache : Map<string, string[]>`. -/
abbrev Cache := List (String × List String)

/-- Outcome of one resolver step: the thrown-or-returned result plus the
updated persistent cache and the shared `visited` set (both mutated in
place in the source, surviving a thrown error). -/
abbrev ResolveOut := Except PErr (List String) × Cache × List String

/-- The `for (const inheritedRole of role.inherits)` loop, parameterized by
the resolver for one parent: resolve each parent with the shared `visited`
set and union its result into the accumulating permission set, propagating
the first thrown error (with the cache and `visited` as mutated so far). -/
def walkChildren (f : String → List String → Cache → Option ResolveOut) :
    List String → List String → Cache → List String → Option ResolveOut
  | [], visited, cache, acc => some (.ok acc, cache, visited)
  | child :: rest, visited, cache, acc =>
    match f child visited cache with
    | none => none
    | some (.error e, c1, v1) => some (.error e, c1, v1)
    | some (.ok ps, c1, v1) => walkChildren f rest v1 c1 (dedupAppend acc ps)

/-- The source's `getRolePermissions(roleName, visited)` with the instance
cache made explicit and a fuel bound added to express the recursion.
`none` means fuel ran out; `resolveF_isSome` below shows the fuel used by
`getRolePermissions` always suffices. -/
def resolveF : Nat → Config → String → List String → Cache → Option ResolveOut
  | 0, _, _, _, _ => none
  | fuel + 1, cfg, roleName, visited, cache =>
    match lookupKey cache roleName with
    | some ps => some (.ok ps, cache, visited)
    | none =>
      match lookupKey cfg.roles roleName with
      | none => some (.error (.roleNotFound roleName), cache, visited)
      | some role =>
        if roleName ∈ visited then
          some (.error (.circularInheritance roleName), cache, visited)
        else
          match walkChildren (resolveF fuel cfg) (role.inherits.getD [])
              (roleName :: visited) cache (dedupAppend [] role.permissions) with
          | none => none
          | some (.error e, c1, v1) => some (.error e, c1, v1)
          | some (.ok ps, c1, v1) => some (.ok ps, mapSet c1 roleName ps, v1)

/-- The full mutable state of a `Permissionless` instance as seen by the
embedded core: the configuration and the two semantically relevant cache
tiers. -/
structure PState where
  config : Config
  cache : Cache
  permissionCache : List (String × Bool)
deriving DecidableEq

/-- `getRolePermissions(roleName)` as called with a fresh `visited` set:
runs the fueled resolver with enough fuel (`cfg.roles.length + 1`, shown
sufficient by `resolveF_isSome`) and returns the result together with the
updated persistent cache. -/
def getRolePermissions (cfg : Config) (cache : Cache) (roleName : String) :
    Except PErr (List String) × Cache :=
  match (resolveF (cfg.roles.length + 1) cfg roleName [] cache).getD
      (.error (.roleNotFound roleName), cache, []) with
  | (res, c1, _) => (res, c1)

/-- Public `getPermissionsForRole(role)`: delegates to `getRolePermissions`. -/
def getPermissionsForRole (cfg : Config) (cache : Cache) (role : String) :
    Except PErr (List String) × Cache :=
  getRolePermissions cfg cache role

/-- The decision-cache key `` `${user.id}:${permission}:${context || ''}` ``:
an absent context and a falsy (empty) context both contribute the empty
string. -/
def cacheKeyOf (user : User) (permission : String) (context : Option String) : String :=
  user.id ++ ":" ++ permission ++ ":" ++ context.getD ""

/-- The requested key `` context ? `${permission}:${context}` : permission ``:
the empty string is falsy in JS, so an empty context yields the bare
permission. -/
def fullPermOf (permission : String) (context : Option String) : String :=
  match context with
  | some ctx => if ctx = "" then permission else permission ++ ":" ++ ctx
  | none => permission

/-- `config.users?.[user.id]` with the object-literal fallback: the user's
override entry, defaulting to no overrides. -/
def userOverridesOf (cfg : Config) (id : String) : UserOverride :=
  (lookupKey (cfg.users.getD []) id).getD ⟨none, none⟩

/-- `userOverrides.denies?.some(denied => this.matchesWildcard(denied, fullPermission))`. -/
def denyMatch (cfg : Config) (id key : String) : Bool :=
  ((userOverridesOf cfg id).denies.getD []).any (fun denied => matchesWildcard denied key)

/-- `userOverrides.permissions?.some(granted => this.matchesWildcard(granted, fullPermission))`. -/
def grantMatch (cfg : Config) (id key : String) : Bool :=
  ((userOverridesOf cfg id).permissions.getD []).any
    (fun granted => matchesWildcard granted key)

/-- `hasPermission(user, permission, context?)` (lines 218-258): decision
cache probe, then deny overrides, then grant overrides, then the role's
resolved permissions.  The returned state carries the role-cache updates
even when role resolution throws (the thrown error skips only the
decision-cache write). -/
def hasPermission (st : PState) (user : User) (permission : String)
    (context : Option String) : Except PErr Bool × PState :=
  let cacheKey := cacheKeyOf user permission context
  match lookupKey st.permissionCache cacheKey with
  | some b => (.ok b, st)
  | none =>
    let fullPermission := fullPermOf permission context
    if denyMatch st.config user.id fullPermission then
      (.ok false, ⟨st.config, st.cache, mapSet st.permissionCache cacheKey false⟩)
    else if grantMatch st.config user.id fullPermission then
      (.ok true, ⟨st.config, st.cache, mapSet st.permissionCache cacheKey true⟩)
    else
      match getRolePermissions st.config st.cache user.role with
      | (.error e, c1) => (.error e, ⟨st.config, c1, st.permissionCache⟩)
      | (.ok rolePermissions, c1) =>
        let result := rolePermissions.any (fun perm => matchesWildcard perm fullPermission)
        (.ok result, ⟨st.config, c1, mapSet st.permissionCache cacheKey result⟩)

/-- Public `clearCache()`: clears the decision cache and the role cache. -/
def clearCache (st : PState) : PState :=
  ⟨st.config, [], []⟩

/-- Remove a role's entry (`delete this.config.roles[roleName]`). -/
def eraseRole (roles : List (String × Role)) (roleName : String) :
    List (String × Role) :=
  roles.filter (fun kv => kv.1 ≠ roleName)

/-- The roles whose `inherits` references `roleName` — note that the
source's filter runs over all roles, including `roleName` itself. -/
def inheritingRoles (cfg : Config) (roleName : String) : List String :=
  (cfg.roles.filter (fun kv => (kv.2.inherits.getD []).contains roleName)).map Prod.fst

/-- `removeRole(roleName)` (lines 318-339): missing role and role-in-use
errors leave the state untouched (thrown before any mutation); otherwise
the role is deleted and `clearInternalCache()` empties every cache tier. -/
def removeRole (st : PState) (roleName : String) : Except PErr Unit × PState :=
  match lookupKey st.config.roles roleName with
  | none => (.error (.roleNotFound roleName), st)
  | some _ =>
    let deps := inheritingRoles st.config roleName
    if deps.length > 0 then
      (.error (.roleInUse roleName deps), st)
    else
      (.ok (), ⟨⟨eraseRole st.config.roles roleName, st.config.users⟩, [], []⟩)

/-! ## Read-only call sequences (claim C1) -/

/-- One read-only public call: `hasPermission` or `getPermissionsForRole`. -/
inductive Op where
  | check (user : User) (permission : String) (context : Option String)
  | query (role : String)
deriving DecidableEq

/-- Result of one read-only call. -/
inductive OpResult where
  | allowed (b : Bool)
  | perms (ps : List String)
deriving DecidableEq

/-- Run one read-only call against the instance state. -/
def runOp (st : PState) : Op → Except PErr OpResult × PState
  | .check user permission context =>
    match hasPermission st user permission context with
    | (res, st1) => (res.map OpResult.allowed, st1)
  | .query role =>
    match getPermissionsForRole st.config st.cache role with
    | (res, c1) => (res.map OpResult.perms, ⟨st.config, c1, st.permissionCache⟩)

/-- Outputs of a sequence of read-only calls, threading the caches. -/
def outs (st : PState) : List Op → List (Except PErr OpResult)
  | [] => []
  | op :: rest =>
    match runOp st op with
    | (res, st1) => res :: outs st1 rest

/-! ## Resolver lemmas: case equations, `visited` growth, fuel sufficiency -/

theorem resolveF_hit (fuel : Nat) (cfg : Config) (r : String) (visited : List String)
    (cache : Cache) (ps : List String) (h : lookupKey cache r = some ps) :
    resolveF (fuel + 1) cfg r visited cache = some (.ok ps, cache, visited) := by
  rw [resolveF, h]

theorem resolveF_notFound (fuel : Nat) (cfg : Config) (r : String) (visited : List String)
    (cache : Cache) (hc : lookupKey cache r = none) (h : lookupKey cfg.roles r = none) :
    resolveF (fuel + 1) cfg r visited cache =
      some (.error (.roleNotFound r), cache, visited) := by
  rw [resolveF, hc, h]

theorem resolveF_circ (fuel : Nat) (cfg : Config) (r : String) (visited : List String)
    (cache : Cache) (role : Role) (hc : lookupKey cache r = none)
    (h : lookupKey cfg.roles r = some role) (hv : r ∈ visited) :
    resolveF (fuel + 1) cfg r visited cache =
      some (.error (.circularInheritance r), cache, visited) := by
  rw [resolveF, hc, h]
  change (if r ∈ visited then _ else _) = _
  rw [if_pos hv]

theorem resolveF_step (fuel : Nat) (cfg : Config) (r : String) (visited : List String)
    (cache : Cache) (role : Role) (hc : lookupKey cache r = none)
    (h : lookupKey cfg.roles r = some role) (hv : r ∉ visited) :
    resolveF (fuel + 1) cfg r visited cache =
      match walkChildren (resolveF fuel cfg) (role.inherits.getD [])
          (r :: visited) cache (dedupAppend [] role.permissions) with
      | none => none
      | some (.error e, c1, v1) => some (.error e, c1, v1)
      | some (.ok ps, c1, v1) => some (.ok ps, mapSet c1 r ps, v1) := by
  rw [resolveF, hc, h]
  change (if r ∈ visited then _ else _) = _
  rw [if_neg hv]

theorem walkChildren_nil (f : String → List String → Cache → Option ResolveOut)
    (visited : List String) (cache : Cache) (acc : List String) :
    walkChildren f [] visited cache acc = some (.ok acc, cache, visited) :=
  rfl

theorem walkChildren_cons (f : String → List String → Cache → Option ResolveOut)
    (c : String) (rest : List String) (visited : List String) (cache : Cache)
    (acc : List String) :
    walkChildren f (c :: rest) visited cache acc =
      match f c visited cache with
      | none => none
      | some (.error e, c1, v1) => some (.error e, c1, v1)
      | some (.ok ps, c1, v1) => walkChildren f rest v1 c1 (dedupAppend acc ps) :=
  rfl

/-- The shared `visited` set only ever grows. -/
theorem resolveF_visited_mono :
    ∀ fuel cfg r visited cache out,
      resolveF fuel cfg r visited cache = some out → ∀ x ∈ visited, x ∈ out.2.2 := by
  intro fuel
  induction fuel with
  | zero =>
    intro cfg r visited cache out h
    cases h
  | succ fuel ih =>
    intro cfg r visited cache out h x hx
    rcases hc : lookupKey cache r with _ | ps
    · rcases hlk : lookupKey cfg.roles r with _ | role
      · rw [resolveF_notFound fuel cfg r visited cache hc hlk] at h
        cases h
        exact hx
      · by_cases hv : r ∈ visited
        · rw [resolveF_circ fuel cfg r visited cache role hc hlk hv] at h
          cases h
          exact hx
        · rw [resolveF_step fuel cfg r visited cache role hc hlk hv] at h
          have walkmono :
              ∀ ch visited1 cache1 acc out1,
                walkChildren (resolveF fuel cfg) ch visited1 cache1 acc = some out1 →
                ∀ y ∈ visited1, y ∈ out1.2.2 := by
            intro ch
            induction ch with
            | nil =>
              intro visited1 cache1 acc out1 hw y hy
              rw [walkChildren_nil] at hw
              cases hw
              exact hy
            | cons c0 rest ihl =>
              intro visited1 cache1 acc out1 hw y hy
              rw [walkChildren_cons] at hw
              rcases hres : resolveF fuel cfg c0 visited1 cache1 with _ | out0
              · rw [hres] at hw
                cases hw
              · rw [hres] at hw
                rcases out0 with ⟨res0, cA, vA⟩
                have hyA : y ∈ vA := ih cfg c0 visited1 cache1 _ hres y hy
                rcases res0 with e | ps0
                · simp only at hw
                  cases hw
                  exact hyA
                · simp only at hw
                  exact ihl vA cA _ out1 hw y hyA
          rcases hw : walkChildren (resolveF fuel cfg) (role.inherits.getD [])
              (r :: visited) cache (dedupAppend [] role.permissions) with _ | out1
          · rw [hw] at h
            cases h
          · rw [hw] at h
            have hxv : x ∈ out1.2.2 :=
              walkmono _ _ _ _ _ hw x (List.mem_cons_of_mem _ hx)
            rcases out1 with ⟨res1, c1, v1⟩
            rcases res1 with e | ps1
            · simp only at h
              cases h
              exact hxv
            · simp only at h
              cases h
              exact hxv
    · rw [resolveF_hit fuel cfg r visited cache ps hc] at h
      cases h
      exact hx

/-- With more fuel than unvisited role names, the resolver cannot run out. -/
theorem resolveF_isSome :
    ∀ fuel cfg r visited cache,
      unvisitedCount cfg visited < fuel → (resolveF fuel cfg r visited cache).isSome := by
  intro fuel
  induction fuel with
  | zero =>
    intro cfg r visited cache hlt
    omega
  | succ fuel ih =>
    intro cfg r visited cache hlt
    rcases hc : lookupKey cache r with _ | ps
    · rcases hlk : lookupKey cfg.roles r with _ | role
      · rw [resolveF_notFound fuel cfg r visited cache hc hlk]
        rfl
      · by_cases hv : r ∈ visited
        · rw [resolveF_circ fuel cfg r visited cache role hc hlk hv]
          rfl
        · rw [resolveF_step fuel cfg r visited cache role hc hlk hv]
          have hfuel : unvisitedCount cfg (r :: visited) < fuel := by
            have := unvisitedCount_cons_lt cfg visited r (lookupKey_mem _ _ _ hlk) hv
            omega
          have walkSome :
              ∀ ch visited1 cache1 acc,
                unvisitedCount cfg visited1 < fuel →
                (walkChildren (resolveF fuel cfg) ch visited1 cache1 acc).isSome := by
            intro ch
            induction ch with
            | nil =>
              intro visited1 cache1 acc _
              rw [walkChildren_nil]
              rfl
            | cons c0 rest ihl =>
              intro visited1 cache1 acc hlt1
              rw [walkChildren_cons]
              rcases hres : resolveF fuel cfg c0 visited1 cache1 with _ | out0
              · have := ih cfg c0 visited1 cache1 hlt1
                rw [hres] at this
                cases this
              · rcases out0 with ⟨res0, cA, vA⟩
                rcases res0 with e | ps0
                · rfl
                · simp only
                  have hsub : ∀ x ∈ visited1, x ∈ vA :=
                    resolveF_visited_mono fuel cfg c0 visited1 cache1 _ hres
                  have hle := unvisitedCount_le_of_subset cfg visited1 vA hsub
                  exact ihl vA cA _ (by omega)
          have := walkSome (role.inherits.getD []) (r :: visited) cache
            (dedupAppend [] role.permissions) hfuel
          rcases hw : walkChildren (resolveF fuel cfg) (role.inherits.getD [])
              (r :: visited) cache (dedupAppend [] role.permissions) with _ | out1
          · rw [hw] at this
            cases this
          · rcases out1 with ⟨res1, c1, v1⟩
            rcases res1 with e | ps1 <;> rfl
    · rw [resolveF_hit fuel cfg r visited cache ps hc]
      rfl

/-! ## The master correspondence

`resolveF` (cache, shared `visited`) agrees with the reference `NCb`
(no cache, branch-scoped `visited`) whenever the cache is sound and the
`visited` set consists of the current stack plus already-cached roles. -/

/-- Cache invariant: every cached entry equals its role's fresh resolution. -/
def RInv (cfg : Config) (cache : Cache) : Prop :=
  ∀ k ps, lookupKey cache k = some ps → NCb cfg [] k = .ok ps

/-- A successfully resolved role is not reachable from a strict ancestor in
both directions: otherwise the role would lie on a cycle. -/
theorem reach_antisym_of_ok (cfg : Config) (r : String) (ps : List String)
    (hok : NCb cfg [] r = .ok ps) (s : String) (hsr : Reach cfg s r) (hne : s ≠ r) :
    ¬ Reach cfg r s := by
  intro hrs
  have tg2 : Relation.TransGen (edge cfg) s r := by
    rcases Relation.ReflTransGen.cases_head hsr with heq | ⟨c, hc, hcr⟩
    · exact absurd heq hne
    · exact Relation.TransGen.head' hc hcr
  have tg1 : Relation.TransGen (edge cfg) r s := by
    rcases Relation.ReflTransGen.cases_head hrs with heq | ⟨c, hc, hcs⟩
    · exact absurd heq.symm hne
    · exact Relation.TransGen.head' hc hcs
  exact NCb_ok_no_cycle cfg [] r ps hok (tg1.trans tg2)

/-- Invariants linking the current call stack `S`, the shared `visited` set
and the cache at entry to a resolver call on `r`. -/
def StackOK (cfg : Config) (S visited : List String) (cache : Cache) (r : String) : Prop :=
  (∀ s ∈ S, s ∈ visited) ∧
  (∀ x ∈ visited, x ∈ S ∨ (lookupKey cache x).isSome) ∧
  (∀ s ∈ S, lookupKey cache s = none) ∧
  (∀ s ∈ S, Reach cfg s r)

/-- What one resolver call guarantees relative to the stack `S`. -/
def MasterOut (cfg : Config) (S : List String) (r : String) (cache : Cache)
    (out : ResolveOut) : Prop :=
  out.1 = NCb cfg S r ∧
  RInv cfg out.2.1 ∧
  (∀ k ps, lookupKey cache k = some ps → lookupKey out.2.1 k = some ps) ∧
  (∀ s ∈ S, lookupKey out.2.1 s = none) ∧
  (∀ ps, out.1 = .ok ps → ∀ x ∈ out.2.2, x ∈ S ∨ (lookupKey out.2.1 x).isSome) ∧
  (∀ ps, out.1 = .ok ps → lookupKey out.2.1 r = some ps) ∧
  (∀ e, out.1 = .error e → lookupKey out.2.1 r = none)

/-- What the fold over a role's parents guarantees relative to the stack. -/
def MasterWalkOut (cfg : Config) (Sl : List String) (ch : List String)
    (acc : List String) (cache : Cache) (out : ResolveOut) : Prop :=
  out.1 = NCbList cfg Sl ch acc ∧
  RInv cfg out.2.1 ∧
  (∀ k ps, lookupKey cache k = some ps → lookupKey out.2.1 k = some ps) ∧
  (∀ s ∈ Sl, lookupKey out.2.1 s = none) ∧
  (∀ ps, out.1 = .ok ps → ∀ x ∈ out.2.2, x ∈ Sl ∨ (lookupKey out.2.1 x).isSome)

theorem masterWalk (fuel : Nat) (cfg : Config)
    (HF : ∀ S r visited cache out, resolveF fuel cfg r visited cache = some out →
      RInv cfg cache → StackOK cfg S visited cache r → MasterOut cfg S r cache out) :
    ∀ ch Sl visited cache acc out,
      walkChildren (resolveF fuel cfg) ch visited cache acc = some out →
      RInv cfg cache →
      (∀ s ∈ Sl, s ∈ visited) →
      (∀ x ∈ visited, x ∈ Sl ∨ (lookupKey cache x).isSome) →
      (∀ s ∈ Sl, lookupKey cache s = none) →
      (∀ s ∈ Sl, ∀ c ∈ ch, Reach cfg s c) →
      MasterWalkOut cfg Sl ch acc cache out := by
  intro ch
  induction ch with
  | nil =>
    intro Sl visited cache acc out hw hR hSv hvS hSc _
    rw [walkChildren_nil] at hw
    cases hw
    exact ⟨(NCbList_nil cfg Sl acc).symm, hR, fun k ps h => h, hSc,
      fun ps _ x hx => hvS x hx⟩
  | cons c0 rest ih =>
    intro Sl visited cache acc out hw hR hSv hvS hSc hre
    rw [walkChildren_cons] at hw
    rcases hres : resolveF fuel cfg c0 visited cache with _ | out0
    · rw [hres] at hw
      cases hw
    · rw [hres] at hw
      have hSOK : StackOK cfg Sl visited cache c0 :=
        ⟨hSv, hvS, hSc, fun s hs => hre s hs c0 (List.mem_cons_self _ _)⟩
      have hm0 := HF Sl c0 visited cache out0 hres hR hSOK
      rcases out0 with ⟨res0, cA, vA⟩
      rcases hm0 with ⟨h1, h2, h3, h4, h5, _, _⟩
      rcases res0 with e | ps0
      · simp only at hw
        cases hw
        refine ⟨?_, h2, h3, h4, ?_⟩
        · rw [NCbList_cons, ← h1]
        · intro ps hps
          cases hps
      · simp only at hw
        have hsubA : ∀ s ∈ Sl, s ∈ vA := fun s hs =>
          resolveF_visited_mono fuel cfg c0 visited cache _ hres s (hSv s hs)
        have hrest := ih Sl vA cA (dedupAppend acc ps0) out hw h2 hsubA
          (h5 ps0 rfl) h4
          (fun s hs c hc => hre s hs c (List.mem_cons_of_mem _ hc))
        rcases hrest with ⟨g1, g2, g3, g4, g5⟩
        refine ⟨?_, g2, fun k ps h => g3 k ps (h3 k ps h), g4, g5⟩
        rw [NCbList_cons, ← h1]
        exact g1

theorem master :
    ∀ fuel cfg S r visited cache out,
      resolveF fuel cfg r visited cache = some out →
      RInv cfg cache → StackOK cfg S visited cache r →
      MasterOut cfg S r cache out := by
  intro fuel
  induction fuel with
  | zero =>
    intro cfg S r visited cache out h
    cases h
  | succ fuel ih =>
    intro cfg S r visited cache out h hR hS
    obtain ⟨hSv, hvS, hSc, hre⟩ := hS
    rcases hc : lookupKey cache r with _ | ps
    · rcases hlk : lookupKey cfg.roles r with _ | role
      · rw [resolveF_notFound fuel cfg r visited cache hc hlk] at h
        cases h
        refine ⟨(NCb_missing cfg S r hlk).symm, hR, fun k ps h => h, hSc, ?_, ?_, fun e _ => hc⟩
        · intro ps hps
          cases hps
        · intro ps hps
          cases hps
      · by_cases hv : r ∈ visited
        · rw [resolveF_circ fuel cfg r visited cache role hc hlk hv] at h
          cases h
          have hrS : r ∈ S := by
            rcases hvS r hv with hx | hx
            · exact hx
            · rw [hc] at hx
              cases hx
          refine ⟨(NCb_visited cfg S r role hlk hrS).symm, hR, fun k ps h => h, hSc,
            ?_, ?_, fun e _ => hc⟩
          · intro ps hps
            cases hps
          · intro ps hps
            cases hps
        · rw [resolveF_step fuel cfg r visited cache role hc hlk hv] at h
          have hrS : r ∉ S := fun hmem => hv (hSv r hmem)
          rcases hw : walkChildren (resolveF fuel cfg) (role.inherits.getD [])
              (r :: visited) cache (dedupAppend [] role.permissions) with _ | outw
          · rw [hw] at h
            cases h
          · rw [hw] at h
            have hwOut := masterWalk fuel cfg (ih cfg) (role.inherits.getD [])
              (r :: S) (r :: visited) cache (dedupAppend [] role.permissions) outw hw hR
              (by
                intro s hs
                rcases List.mem_cons.mp hs with rfl | hs2
                · exact List.mem_cons_self _ _
                · exact List.mem_cons_of_mem _ (hSv s hs2))
              (by
                intro x hx
                rcases List.mem_cons.mp hx with rfl | hx2
                · exact Or.inl (List.mem_cons_self _ _)
                · rcases hvS x hx2 with hx3 | hx3
                  · exact Or.inl (List.mem_cons_of_mem _ hx3)
                  · exact Or.inr hx3)
              (by
                intro s hs
                rcases List.mem_cons.mp hs with rfl | hs2
                · exact hc
                · exact hSc s hs2)
              (by
                intro s hs c hcmem
                have hedge := edge_of_inherits cfg r c role hlk hcmem
                rcases List.mem_cons.mp hs with rfl | hs2
                · exact Relation.ReflTransGen.single hedge
                · exact Relation.ReflTransGen.tail (hre s hs2) hedge)
            rcases outw with ⟨resw, cW, vW⟩
            rcases hwOut with ⟨g1, g2, g3, g4, g5⟩
            rcases resw with e | psw
            · simp only at h
              cases h
              refine ⟨?_, g2, g3, fun s hs => g4 s (List.mem_cons_of_mem _ hs), ?_, ?_, ?_⟩
              · rw [NCb_step cfg S r role hlk hrS]
                exact g1
              · intro ps hps
                cases hps
              · intro ps hps
                cases hps
              · intro e1 _
                exact g4 r (List.mem_cons_self _ _)
            · simp only at h
              cases h
              have hNCbS : NCb cfg S r = .ok psw := by
                rw [NCb_step cfg S r role hlk hrS]
                exact g1.symm
              have hfresh : NCb cfg [] r = .ok psw :=
                NCb_mono cfg S r psw hNCbS [] (by intro x hx; cases hx)
              refine ⟨hNCbS.symm, ?_, ?_, ?_, ?_, ?_, ?_⟩
              · intro k ps1 hk
                by_cases hkr : k = r
                · subst hkr
                  rw [lookupKey_mapSet_self] at hk
                  cases hk
                  exact hfresh
                · rw [lookupKey_mapSet_ne cW r k psw hkr] at hk
                  exact g2 k ps1 hk
              · intro k ps1 hk
                have hkr : k ≠ r := by
                  intro hkr
                  rw [hkr, hc] at hk
                  cases hk
                rw [lookupKey_mapSet_ne cW r k psw hkr]
                exact g3 k ps1 hk
              · intro s hs
                have hsr : s ≠ r := fun hsr => hrS (hsr ▸ hs)
                rw [lookupKey_mapSet_ne cW r s psw hsr]
                exact g4 s (List.mem_cons_of_mem _ hs)
              · intro ps1 hps x hx
                cases hps
                rcases g5 psw rfl x hx with hx2 | hx2
                · rcases List.mem_cons.mp hx2 with rfl | hx3
                  · refine Or.inr ?_
                    rw [lookupKey_mapSet_self]
                    rfl
                  · exact Or.inl hx3
                · exact Or.inr (lookupKey_mapSet_isSome cW r x psw hx2)
              · intro ps1 hps
                cases hps
                rw [lookupKey_mapSet_self]
              · intro e1 he1
                cases he1
    · rw [resolveF_hit fuel cfg r visited cache ps hc] at h
      cases h
      have hfresh : NCb cfg [] r = .ok ps := hR r ps hc
      have hrS : r ∉ S := by
        intro hmem
        rw [hSc r hmem] at hc
        cases hc
      have hNCbS : NCb cfg S r = .ok ps := by
        refine NCb_mono cfg [] r ps hfresh S ?_
        intro x hx
        refine Or.inr ?_
        have hxr : x ≠ r := fun hxr => hrS (hxr ▸ hx)
        exact reach_antisym_of_ok cfg r ps hfresh x (hre x hx) hxr
      refine ⟨hNCbS.symm, hR, fun k ps1 h1 => h1, hSc,
        fun ps1 _ x hx => hvS x hx, ?_, ?_⟩
      · intro ps1 hps
        cases hps
        exact hc
      · intro e he
        cases he

theorem RInv_nil (cfg : Config) : RInv cfg [] := by
  intro k ps h
  simp [lookupKey] at h

theorem StackOK_nil (cfg : Config) (r : String) (cache : Cache) :
    StackOK cfg [] [] cache r := by
  refine ⟨?_, ?_, ?_, ?_⟩ <;> intro s hs <;> cases hs

theorem getRolePermissions_resolveF (cfg : Config) (cache : Cache) (r : String) :
    ∃ out, resolveF (cfg.roles.length + 1) cfg r [] cache = some out := by
  have hlt : unvisitedCount cfg [] < cfg.roles.length + 1 := by
    unfold unvisitedCount
    have h1 : ([] : List String).toFinset = (∅ : Finset String) := rfl
    rw [h1, Finset.sdiff_empty]
    have h2 := List.toFinset_card_le (roleNames cfg)
    have h3 : (roleNames cfg).length = cfg.roles.length := by
      unfold roleNames
      rw [List.length_map]
    omega
  have h := resolveF_isSome (cfg.roles.length + 1) cfg r [] cache hlt
  exact Option.isSome_iff_exists.mp h

/-- The cached resolver, called as the source calls it (fresh `visited`),
yields the reference resolution, keeps the cache sound, preserves existing
entries, caches the resolved role on success, and leaves the role uncached
on failure. -/
theorem getRolePermissions_sound (cfg : Config) (cache : Cache) (r : String)
    (hR : RInv cfg cache) :
    (getRolePermissions cfg cache r).1 = NCb cfg [] r ∧
    RInv cfg (getRolePermissions cfg cache r).2 ∧
    (∀ k ps, lookupKey cache k = some ps →
      lookupKey (getRolePermissions cfg cache r).2 k = some ps) ∧
    (∀ ps, (getRolePermissions cfg cache r).1 = .ok ps →
      lookupKey (getRolePermissions cfg cache r).2 r = some ps) ∧
    (∀ e, (getRolePermissions cfg cache r).1 = .error e →
      lookupKey (getRolePermissions cfg cache r).2 r = none) := by
  obtain ⟨out, hout⟩ := getRolePermissions_resolveF cfg cache r
  have hm := master (cfg.roles.length + 1) cfg [] r [] cache out hout hR
    (StackOK_nil cfg r cache)
  rcases out with ⟨res, c1, v1⟩
  rcases hm with ⟨h1, h2, h3, _, _, h6, h7⟩
  have hg : getRolePermissions cfg cache r = (res, c1) := by
    unfold getRolePermissions
    rw [hout]
    rfl
  rw [hg]
  exact ⟨h1, h2, h3, h6, h7⟩

/-- Fresh evaluation of the resolver is exactly the reference resolution. -/
theorem getRolePermissions_fresh (cfg : Config) (r : String) :
    (getRolePermissions cfg [] r).1 = NCb cfg [] r :=
  (getRolePermissions_sound cfg [] r (RInv_nil cfg)).1

/-! ## `hasPermission` case equations and memoization soundness -/

theorem hasPermission_hit (st : PState) (u : User) (p : String) (c : Option String)
    (b : Bool) (h : lookupKey st.permissionCache (cacheKeyOf u p c) = some b) :
    hasPermission st u p c = (.ok b, st) := by
  unfold hasPermission
  simp only [h]

theorem hasPermission_deny (st : PState) (u : User) (p : String) (c : Option String)
    (hmiss : lookupKey st.permissionCache (cacheKeyOf u p c) = none)
    (hdeny : denyMatch st.config u.id (fullPermOf p c) = true) :
    hasPermission st u p c =
      (.ok false, ⟨st.config, st.cache,
        mapSet st.permissionCache (cacheKeyOf u p c) false⟩) := by
  unfold hasPermission
  simp only [hmiss, hdeny, if_true]

theorem hasPermission_grant (st : PState) (u : User) (p : String) (c : Option String)
    (hmiss : lookupKey st.permissionCache (cacheKeyOf u p c) = none)
    (hdeny : denyMatch st.config u.id (fullPermOf p c) = false)
    (hgrant : grantMatch st.config u.id (fullPermOf p c) = true) :
    hasPermission st u p c =
      (.ok true, ⟨st.config, st.cache,
        mapSet st.permissionCache (cacheKeyOf u p c) true⟩) := by
  unfold hasPermission
  simp only [hmiss, hdeny, hgrant, if_true, Bool.false_eq_true, if_false]

theorem hasPermission_role (st : PState) (u : User) (p : String) (c : Option String)
    (hmiss : lookupKey st.permissionCache (cacheKeyOf u p c) = none)
    (hdeny : denyMatch st.config u.id (fullPermOf p c) = false)
    (hgrant : grantMatch st.config u.id (fullPermOf p c) = false) :
    hasPermission st u p c =
      match getRolePermissions st.config st.cache u.role with
      | (.error e, c1) => (.error e, ⟨st.config, c1, st.permissionCache⟩)
      | (.ok rolePermissions, c1) =>
        (.ok (rolePermissions.any
            (fun perm => matchesWildcard perm (fullPermOf p c))),
          ⟨st.config, c1, mapSet st.permissionCache (cacheKeyOf u p c)
            (rolePermissions.any
              (fun perm => matchesWildcard perm (fullPermOf p c)))⟩) := by
  unfold hasPermission
  simp only [hmiss, hdeny, hgrant, Bool.false_eq_true, if_false]

theorem lookupKey_mapSet_inv {α : Type} (m : List (String × α)) (key k : String)
    (v w : α) (h : lookupKey (mapSet m key v) k = some w) :
    (k = key ∧ w = v) ∨ lookupKey m k = some w := by
  by_cases hk : k = key
  · subst hk
    rw [lookupKey_mapSet_self] at h
    cases h
    exact Or.inl ⟨rfl, rfl⟩
  · rw [lookupKey_mapSet_ne m key k v hk] at h
    exact Or.inr h

/-- Fresh evaluation of `hasPermission` (empty caches) in terms of the
decision pipeline: deny overrides, then grant overrides, then the
reference resolution of the user's role. -/
theorem hasPermission_fresh_eval (cfg : Config) (u : User) (p : String)
    (c : Option String) :
    (hasPermission ⟨cfg, [], []⟩ u p c).1 =
      if denyMatch cfg u.id (fullPermOf p c) then .ok false
      else if grantMatch cfg u.id (fullPermOf p c) then .ok true
      else (NCb cfg [] u.role).map
        (fun ps => ps.any (fun perm => matchesWildcard perm (fullPermOf p c))) := by
  have hmiss : lookupKey ([] : List (String × Bool)) (cacheKeyOf u p c) = none := rfl
  rcases hdeny : denyMatch cfg u.id (fullPermOf p c) with _ | _
  · rcases hgrant : grantMatch cfg u.id (fullPermOf p c) with _ | _
    · rw [hasPermission_role ⟨cfg, [], []⟩ u p c hmiss hdeny hgrant]
      rcases hg : getRolePermissions cfg [] u.role with ⟨res, c1⟩
      have hres : res = NCb cfg [] u.role := by
        have := getRolePermissions_fresh cfg u.role
        rw [hg] at this
        exact this
      simp only [Bool.false_eq_true, if_false]
      rcases res with e | ps
      · simp [← hres, Except.map]
      · simp [← hres, Except.map]
    · rw [hasPermission_grant ⟨cfg, [], []⟩ u p c hmiss hdeny hgrant]
      simp [Bool.false_eq_true]
  · rw [hasPermission_deny ⟨cfg, [], []⟩ u p c hmiss hdeny]
    simp

/-- The fresh decision depends only on the user's id, the user's role and
the built full-permission key. -/
theorem hasPermission_fresh_congr (cfg : Config) (u1 u2 : User) (p1 p2 : String)
    (c1 c2 : Option String) (hid : u1.id = u2.id) (hrole : u1.role = u2.role)
    (hfp : fullPermOf p1 c1 = fullPermOf p2 c2) :
    (hasPermission ⟨cfg, [], []⟩ u1 p1 c1).1 = (hasPermission ⟨cfg, [], []⟩ u2 p2 c2).1 := by
  rw [hasPermission_fresh_eval, hasPermission_fresh_eval, hid, hrole, hfp]

/-- One decision-cache miss evaluated from a sound role cache behaves like
the call from fully empty caches, keeps the role cache sound, and adds at
most its own key to the decision cache. -/
theorem hasPermission_miss_sound (st : PState) (u : User) (p : String)
    (c : Option String) (hR : RInv st.config st.cache)
    (hmiss : lookupKey st.permissionCache (cacheKeyOf u p c) = none) :
    (hasPermission st u p c).1 = (hasPermission ⟨st.config, [], []⟩ u p c).1 ∧
    (hasPermission st u p c).2.config = st.config ∧
    RInv st.config (hasPermission st u p c).2.cache ∧
    (∀ k b, lookupKey (hasPermission st u p c).2.permissionCache k = some b →
      lookupKey st.permissionCache k = some b ∨
        (k = cacheKeyOf u p c ∧ (hasPermission st u p c).1 = .ok b)) := by
  rw [hasPermission_fresh_eval]
  rcases hdeny : denyMatch st.config u.id (fullPermOf p c) with _ | _
  · rcases hgrant : grantMatch st.config u.id (fullPermOf p c) with _ | _
    · rw [hasPermission_role st u p c hmiss hdeny hgrant]
      rcases hg : getRolePermissions st.config st.cache u.role with ⟨res, c1⟩
      have hsound := getRolePermissions_sound st.config st.cache u.role hR
      rw [hg] at hsound
      rcases hsound with ⟨h1, h2, _, _, _⟩
      simp only [Bool.false_eq_true, if_false]
      rcases res with e | ps
      · refine ⟨by simp [← h1, Except.map], rfl, h2, ?_⟩
        intro k b hk
        exact Or.inl hk
      · refine ⟨by simp [← h1, Except.map], rfl, h2, ?_⟩
        intro k b hk
        rcases lookupKey_mapSet_inv _ _ _ _ _ hk with ⟨rfl, rfl⟩ | hold
        · exact Or.inr ⟨rfl, rfl⟩
        · exact Or.inl hold
    · rw [hasPermission_grant st u p c hmiss hdeny hgrant]
      refine ⟨by simp [hdeny, hgrant], rfl, hR, ?_⟩
      intro k b hk
      rcases lookupKey_mapSet_inv _ _ _ _ _ hk with ⟨rfl, rfl⟩ | hold
      · exact Or.inr ⟨rfl, rfl⟩
      · exact Or.inl hold
  · rw [hasPermission_deny st u p c hmiss hdeny]
    refine ⟨by simp [hdeny], rfl, hR, ?_⟩
    intro k b hk
    rcases lookupKey_mapSet_inv _ _ _ _ _ hk with ⟨rfl, rfl⟩ | hold
    · exact Or.inr ⟨rfl, rfl⟩
    · exact Or.inl hold

/-! ## Call sequences: memoized decisions against fresh decisions -/

/-- No harmful decision-cache key collision inside a sequence: any two
`hasPermission` calls that build the same cache-key string agree on the
user id, the user role and the full permission key. -/
def KeyCoherent (ops : List Op) : Prop :=
  ∀ u1 p1 c1 u2 p2 c2,
    Op.check u1 p1 c1 ∈ ops → Op.check u2 p2 c2 ∈ ops →
    cacheKeyOf u1 p1 c1 = cacheKeyOf u2 p2 c2 →
    u1.id = u2.id ∧ u1.role = u2.role ∧ fullPermOf p1 c1 = fullPermOf p2 c2

/-- Every decision-cache entry was produced by some `hasPermission` call of
the ambient sequence and stores that call's fresh decision. -/
def DInv (cfg : Config) (L : List Op) (pc : List (String × Bool)) : Prop :=
  ∀ k b, lookupKey pc k = some b →
    ∃ u p c, Op.check u p c ∈ L ∧ cacheKeyOf u p c = k ∧
      (hasPermission ⟨cfg, [], []⟩ u p c).1 = .ok b

theorem DInv_nil (cfg : Config) (L : List Op) : DInv cfg L [] := by
  intro k b h
  simp [lookupKey] at h

theorem runOp_check (st : PState) (u : User) (p : String) (c : Option String) :
    runOp st (Op.check u p c) =
      ((hasPermission st u p c).1.map OpResult.allowed, (hasPermission st u p c).2) := by
  show (match hasPermission st u p c with
    | (res, st1) => (Except.map OpResult.allowed res, st1)) = _
  rcases h : hasPermission st u p c with ⟨res, st1⟩
  rfl

theorem runOp_query (st : PState) (role : String) :
    runOp st (Op.query role) =
      ((getPermissionsForRole st.config st.cache role).1.map OpResult.perms,
        ⟨st.config, (getPermissionsForRole st.config st.cache role).2,
          st.permissionCache⟩) := by
  show (match getPermissionsForRole st.config st.cache role with
    | (res, c1) => (Except.map OpResult.perms res,
        PState.mk st.config c1 st.permissionCache)) = _
  rcases h : getPermissionsForRole st.config st.cache role with ⟨res, c1⟩
  rfl

theorem outs_cons (st : PState) (op : Op) (rest : List Op) :
    outs st (op :: rest) = (runOp st op).1 :: outs (runOp st op).2 rest := by
  conv_lhs => unfold outs

theorem outs_fresh_aux (cfg : Config) (L : List Op) (hKC : KeyCoherent L) :
    ∀ ops st, (∀ op ∈ ops, op ∈ L) → st.config = cfg → RInv cfg st.cache →
      DInv cfg L st.permissionCache →
      ∀ (i : Nat) (u : User) (p : String) (c : Option String),
        ops[i]? = some (Op.check u p c) →
        (outs st ops)[i]? =
          some ((hasPermission ⟨cfg, [], []⟩ u p c).1.map OpResult.allowed) := by
  intro ops
  induction ops with
  | nil =>
    intro st _ _ _ _ i u p c h
    cases h
  | cons op rest ih =>
    intro st hsub hcfg hR hD i u p c hop
    rw [outs_cons]
    rcases op with ⟨u0, p0, c0⟩ | role
    · rw [runOp_check]
      rcases hhit : lookupKey st.permissionCache (cacheKeyOf u0 p0 c0) with _ | b
      · -- decision-cache miss: the call computes the fresh decision
        have hms := hasPermission_miss_sound st u0 p0 c0 (hcfg ▸ hR) hhit
        rcases hms with ⟨hres, hcfg1, hR1, hpc1⟩
        rcases i with _ | i
        · rw [List.getElem?_cons_zero] at hop
          cases hop
          rw [List.getElem?_cons_zero]
          simp only [Option.some.injEq]
          rw [hres, hcfg]
        · rw [List.getElem?_cons_succ] at hop
          rw [List.getElem?_cons_succ]
          refine ih (hasPermission st u0 p0 c0).2
            (fun o ho => hsub o (List.mem_cons_of_mem _ ho))
            (by rw [hcfg1, hcfg]) (by rw [← hcfg]; exact hR1) ?_ i u p c hop
          intro k b hk
          rcases hpc1 k b hk with hold | ⟨rfl, hfreshb⟩
          · exact hD k b hold
          · refine ⟨u0, p0, c0, hsub _ (List.mem_cons_self _ _), rfl, ?_⟩
            rw [hres, hcfg] at hfreshb
            exact hfreshb
      · -- decision-cache hit: the stored bit is some coherent call's fresh decision
        have hhp := hasPermission_hit st u0 p0 c0 b hhit
        rw [hhp]
        rcases i with _ | i
        · rw [List.getElem?_cons_zero] at hop
          cases hop
          rw [List.getElem?_cons_zero]
          simp only [Option.some.injEq]
          rcases hD _ b hhit with ⟨u1, p1, c1, hmem1, hkey1, hfresh1⟩
          have hagree := hKC u1 p1 c1 u p c hmem1 (hsub _ (List.mem_cons_self _ _)) hkey1
          have hcongr := hasPermission_fresh_congr cfg u1 u p1 p c1 c
            hagree.1 hagree.2.1 hagree.2.2
          rw [hcongr] at hfresh1
          rw [hfresh1]
        · rw [List.getElem?_cons_succ] at hop
          rw [List.getElem?_cons_succ]
          exact ih st (fun o ho => hsub o (List.mem_cons_of_mem _ ho)) hcfg hR hD
            i u p c hop
    · -- getPermissionsForRole call: decision cache untouched, role cache stays sound
      rw [runOp_query]
      have hsound := getRolePermissions_sound st.config st.cache role (hcfg ▸ hR)
      have hR1 : RInv cfg (getPermissionsForRole st.config st.cache role).2 := by
        rw [← hcfg]
        exact hsound.2.1
      rcases i with _ | i
      · rw [List.getElem?_cons_zero] at hop
        cases hop
      · rw [List.getElem?_cons_succ] at hop
        rw [List.getElem?_cons_succ]
        exact ih ⟨st.config, (getPermissionsForRole st.config st.cache role).2,
            st.permissionCache⟩
          (fun o ho => hsub o (List.mem_cons_of_mem _ ho)) hcfg hR1 hD i u p c hop

/-! ## Claims -/

/-- C9: the wildcard matcher on pattern `"write:articles.*"` accepts the
requested strings `"write:articles.section1"` and `"write:articles."` but
rejects `"write:articles"` (no trailing segment). -/
theorem c9_wildcard_boundary :
    matchesWildcard "write:articles.*" "write:articles.section1" = true ∧
    matchesWildcard "write:articles.*" "write:articles." = true ∧
    matchesWildcard "write:articles.*" "write:articles" = false := by
  refine ⟨by decide, by decide, by decide⟩

/-- C3 counterexample: the `replace(/\*/g, '.*')` translation does not
escape other regex metacharacters, so in pattern `"a.*"` the `.` keeps its
any-character regex meaning and the pattern matches `"ab"`, which the
claimed take-non-`*`-characters-literally semantics rejects. -/
theorem c3_counterexample :
    matchesWildcard "a.*" "ab" = true ∧ claimMatches "a.*" "ab" = false := by
  refine ⟨by decide, by decide⟩

/-- C3 amended: when the pattern contains no `*`, matching is exact string
equality; when the pattern contains `*` but no other regex metacharacter,
the requested string must decompose, anchored at both ends, into the
pattern's non-`*` characters taken literally with each `*` consuming a run
of zero or more non-line-terminator characters (JS `.*` semantics). -/
theorem c3_amended_plain_glob (pattern requested : String) :
    ('*' ∉ pattern.toList → matchesWildcard pattern requested = (pattern == requested)) ∧
    (plainPattern pattern →
      matchesWildcard pattern requested = specMatchesNL pattern requested) := by
  constructor
  · intro hstar
    unfold matchesWildcard
    rw [if_neg hstar]
  · intro hplain
    unfold matchesWildcard specMatchesNL
    by_cases hstar : '*' ∈ pattern.toList
    · rw [if_pos hstar, if_pos hstar]
      exact reMatch_eq_specGlobNL pattern.toList hplain requested.toList
    · rw [if_neg hstar, if_neg hstar]

/-- C3 amended witness at a concrete plain pattern. -/
theorem c3_amended_plain_glob_witness :
    plainPattern "a*b" ∧
    matchesWildcard "a*b" "aXYb" = specMatchesNL "a*b" "aXYb" ∧
    matchesWildcard "a*b" "aXYb" = true :=
  ⟨by decide, (c3_amended_plain_glob "a*b" "aXYb").2 (by decide), by decide⟩

/-- C10: calling `hasPermission` with the empty string as context is
indistinguishable from calling it with no context: the decision-cache key
and the full permission key coincide, and the calls return identical
results and states. -/
theorem c10_empty_context_eq_none (st : PState) (u : User) (p : String) :
    cacheKeyOf u p (some "") = cacheKeyOf u p none ∧
    fullPermOf p (some "") = fullPermOf p none ∧
    hasPermission st u p (some "") = hasPermission st u p none := by
  refine ⟨rfl, rfl, rfl⟩

/-- C2: from an empty decision cache (with a sound role cache), the rules
apply in strict order on the key built from permission and context: a
matching deny override forces `false` regardless of anything else; else a
matching grant override forces `true`; else the decision is exactly
whether some permission of the role's resolved effective set matches the
key, and a resolution failure propagates. -/
theorem c2_decision_order (st : PState) (u : User) (p : String) (c : Option String)
    (hpc : st.permissionCache = []) (hR : RInv st.config st.cache) :
    (denyMatch st.config u.id (fullPermOf p c) = true →
      (hasPermission st u p c).1 = .ok false) ∧
    (denyMatch st.config u.id (fullPermOf p c) = false →
      grantMatch st.config u.id (fullPermOf p c) = true →
      (hasPermission st u p c).1 = .ok true) ∧
    (denyMatch st.config u.id (fullPermOf p c) = false →
      grantMatch st.config u.id (fullPermOf p c) = false →
      ∀ ps, NCb st.config [] u.role = .ok ps →
        (hasPermission st u p c).1 =
          .ok (ps.any (fun perm => matchesWildcard perm (fullPermOf p c)))) ∧
    (denyMatch st.config u.id (fullPermOf p c) = false →
      grantMatch st.config u.id (fullPermOf p c) = false →
      ∀ e, NCb st.config [] u.role = .error e →
        (hasPermission st u p c).1 = .error e) := by
  have hmiss : lookupKey st.permissionCache (cacheKeyOf u p c) = none := by
    rw [hpc]
    rfl
  refine ⟨?_, ?_, ?_, ?_⟩
  · intro hdeny
    rw [hasPermission_deny st u p c hmiss hdeny]
  · intro hdeny hgrant
    rw [hasPermission_grant st u p c hmiss hdeny hgrant]
  · intro hdeny hgrant ps hres
    rw [hasPermission_role st u p c hmiss hdeny hgrant]
    rcases hg : getRolePermissions st.config st.cache u.role with ⟨res, c1⟩
    have h1 := (getRolePermissions_sound st.config st.cache u.role hR).1
    rw [hg] at h1
    simp only at h1
    rw [hres] at h1
    cases h1
    rfl
  · intro hdeny hgrant e hres
    rw [hasPermission_role st u p c hmiss hdeny hgrant]
    rcases hg : getRolePermissions st.config st.cache u.role with ⟨res, c1⟩
    have h1 := (getRolePermissions_sound st.config st.cache u.role hR).1
    rw [hg] at h1
    simp only at h1
    rw [hres] at h1
    cases h1
    rfl

/-- C2 witness: the spec's deny-wins example — role grants `read:*`, the
user's override denies `read:articles`, so the check is denied. -/
theorem c2_decision_order_witness :
    (hasPermission ⟨⟨[("r", ⟨["read:*"], none⟩)],
        some [("u", ⟨none, some ["read:articles"]⟩)]⟩, [], []⟩
      ⟨"u", "r"⟩ "read" (some "articles")).1 = .ok false :=
  (c2_decision_order ⟨⟨[("r", ⟨["read:*"], none⟩)],
      some [("u", ⟨none, some ["read:articles"]⟩)]⟩, [], []⟩
    ⟨"u", "r"⟩ "read" (some "articles") rfl (RInv_nil _)).1 (by decide)

/-- C4: the list handed out by `getPermissionsForRole` coincides with the
live cache entry it stores — the source returns the stored array itself
(`return this.cache.get(roleName)` / the array passed to `cache.set`),
not a copy. -/
theorem c4_returned_list_is_cache_entry (cfg : Config) (cache : Cache) (r : String)
    (hR : RInv cfg cache) (ps : List String)
    (hok : (getPermissionsForRole cfg cache r).1 = .ok ps) :
    lookupKey (getPermissionsForRole cfg cache r).2 r = some ps := by
  unfold getPermissionsForRole at hok ⊢
  exact (getRolePermissions_sound cfg cache r hR).2.2.2.1 ps hok

/-- C4 witness at a concrete configuration. -/
theorem c4_returned_list_is_cache_entry_witness :
    lookupKey (getPermissionsForRole ⟨[("r", ⟨["x"], none⟩)], none⟩ [] "r").2 "r"
      = some ["x"] :=
  c4_returned_list_is_cache_entry ⟨[("r", ⟨["x"], none⟩)], none⟩ [] "r"
    (RInv_nil _) ["x"] (by decide)

/-- C8 counterexample: a role whose `inherits` lists itself.  No other role
references it, yet `removeRole` fails with the role-in-use error naming
the role as its own dependent, because the source's filter runs over all
roles including the removed one. -/
theorem c8_counterexample :
    (removeRole ⟨⟨[("a", ⟨[], some ["a"]⟩)], none⟩, [], []⟩ "a").1
      = .error (.roleInUse "a" ["a"]) ∧
    (∀ kv ∈ (⟨[("a", ⟨[], some ["a"]⟩)], none⟩ : Config).roles, kv.1 = "a") := by
  refine ⟨by decide, by decide⟩

/-- C8 amended: `removeRole` fails with the role-not-found error when the
role is absent; fails with the role-in-use error naming the dependent
roles when any role's `inherits` (the role itself included) references the
name, leaving the whole state untouched; otherwise deletes the role and
empties every cache tier. -/
theorem c8_amended_removeRole (st : PState) (name : String) :
    (lookupKey st.config.roles name = none →
      removeRole st name = (.error (.roleNotFound name), st)) ∧
    (∀ role, lookupKey st.config.roles name = some role →
      inheritingRoles st.config name ≠ [] →
      removeRole st name =
        (.error (.roleInUse name (inheritingRoles st.config name)), st)) ∧
    (∀ role, lookupKey st.config.roles name = some role →
      inheritingRoles st.config name = [] →
      removeRole st name =
        (.ok (), ⟨⟨eraseRole st.config.roles name, st.config.users⟩, [], []⟩)) ∧
    (inheritingRoles st.config name ≠ [] ↔
      ∃ kv ∈ st.config.roles, name ∈ kv.2.inherits.getD []) := by
  refine ⟨?_, ?_, ?_, ?_⟩
  · intro hmiss
    unfold removeRole
    rw [hmiss]
  · intro role hsome hdeps
    unfold removeRole
    rw [hsome]
    have hlen : (inheritingRoles st.config name).length > 0 :=
      List.length_pos.mpr hdeps
    simp only [hlen, if_true]
  · intro role hsome hdeps
    unfold removeRole
    rw [hsome]
    have hlen : ¬ (inheritingRoles st.config name).length > 0 := by
      rw [hdeps]
      simp
    simp only [hlen, if_false]
  · unfold inheritingRoles
    constructor
    · intro hne
      rcases List.exists_mem_of_ne_nil _ hne with ⟨x, hx⟩
      rcases List.mem_map.mp hx with ⟨kv, hkv, rfl⟩
      rcases List.mem_filter.mp hkv with ⟨hkvmem, hkvpred⟩
      exact ⟨kv, hkvmem, List.mem_of_elem_eq_true hkvpred⟩
    · rintro ⟨kv, hkvmem, hkvref⟩ hmap
      have hkv : kv ∈ st.config.roles.filter
          (fun kv => (kv.2.inherits.getD []).contains name) :=
        List.mem_filter.mpr ⟨hkvmem, List.elem_eq_true_of_mem hkvref⟩
      have : kv.1 ∈ (st.config.roles.filter
          (fun kv => (kv.2.inherits.getD []).contains name)).map Prod.fst :=
        List.mem_map.mpr ⟨kv, hkv, rfl⟩
      rw [hmap] at this
      cases this

/-- C8 amended witness: the three cases at concrete configurations. -/
theorem c8_amended_removeRole_witness :
    removeRole ⟨⟨[("a", ⟨[], none⟩)], none⟩, [("a", ["x"])], [("k", true)]⟩ "a"
      = (.ok (), ⟨⟨eraseRole [("a", ⟨[], none⟩)] "a", none⟩, [], []⟩) ∧
    removeRole ⟨⟨[("a", ⟨[], none⟩), ("b", ⟨[], some ["a"]⟩)], none⟩, [], []⟩ "a"
      = (.error (.roleInUse "a" ["b"]),
          ⟨⟨[("a", ⟨[], none⟩), ("b", ⟨[], some ["a"]⟩)], none⟩, [], []⟩) ∧
    removeRole ⟨⟨[("a", ⟨[], none⟩)], none⟩, [], []⟩ "zz"
      = (.error (.roleNotFound "zz"), ⟨⟨[("a", ⟨[], none⟩)], none⟩, [], []⟩) := by
  refine ⟨?_, ?_, ?_⟩
  · exact (c8_amended_removeRole
      ⟨⟨[("a", ⟨[], none⟩)], none⟩, [("a", ["x"])], [("k", true)]⟩ "a").2.2.1
      ⟨[], none⟩ (by decide) (by decide)
  · have h := (c8_amended_removeRole
      ⟨⟨[("a", ⟨[], none⟩), ("b", ⟨[], some ["a"]⟩)], none⟩, [], []⟩ "a").2.1
      ⟨[], none⟩ (by decide) (by decide)
    rw [h]
    rfl
  · exact (c8_amended_removeRole
      ⟨⟨[("a", ⟨[], none⟩)], none⟩, [], []⟩ "zz").1 (by decide)

theorem lookupKey_mem_pair {α : Type} (m : List (String × α)) (k : String) (v : α)
    (h : lookupKey m k = some v) : (k, v) ∈ m := by
  induction m with
  | nil => cases h
  | cons kv rest ih =>
    rw [lookupKey] at h
    by_cases hk : kv.1 = k
    · rw [if_pos hk] at h
      cases h
      have hkv : kv = (k, kv.2) := Prod.ext hk rfl
      rw [← hkv]
      exact List.mem_cons_self _ _
    · rw [if_neg hk] at h
      exact List.mem_cons_of_mem _ (ih h)

/-- In a configuration whose `inherits` lists only name existing roles,
everything reachable from an existing role exists. -/
theorem reach_present_of_closed (cfg : Config)
    (hcl : ∀ kv ∈ cfg.roles, ∀ c ∈ kv.2.inherits.getD [],
      (lookupKey cfg.roles c).isSome) :
    ∀ r m, (lookupKey cfg.roles r).isSome → Reach cfg r m →
      (lookupKey cfg.roles m).isSome := by
  intro r m hr hreach
  induction hreach with
  | refl => exact hr
  | tail hab hbc ih =>
    rcases hbc with ⟨role, hlk, hmem⟩
    exact hcl (_, role) (lookupKey_mem_pair _ _ _ hlk) _ hmem

/-- The reference resolver only fails with role-not-found or circular
inheritance. -/
theorem NCb_err_kinds (cfg : Config) :
    ∀ n v r e, unvisitedCount cfg v ≤ n → NCb cfg v r = .error e →
      (∃ m, e = .roleNotFound m) ∨ (∃ x, e = .circularInheritance x) := by
  intro n
  induction n with
  | zero =>
    intro v r e hn herr
    rcases hlk : lookupKey cfg.roles r with _ | role
    · rw [NCb_missing cfg v r hlk] at herr
      cases herr
      exact Or.inl ⟨r, rfl⟩
    · by_cases hv : r ∈ v
      · rw [NCb_visited cfg v r role hlk hv] at herr
        cases herr
        exact Or.inr ⟨r, rfl⟩
      · have hpos := unvisitedCount_pos cfg v r (lookupKey_mem _ _ _ hlk) hv
        omega
  | succ n ih =>
    intro v r e hn herr
    rcases hlk : lookupKey cfg.roles r with _ | role
    · rw [NCb_missing cfg v r hlk] at herr
      cases herr
      exact Or.inl ⟨r, rfl⟩
    · by_cases hv : r ∈ v
      · rw [NCb_visited cfg v r role hlk hv] at herr
        cases herr
        exact Or.inr ⟨r, rfl⟩
      · rw [NCb_step cfg v r role hlk hv] at herr
        rcases NCbList_err _ _ _ _ _ herr with ⟨cx, _, hcerr⟩
        have hmeas : unvisitedCount cfg (r :: v) ≤ n := by
          have hlt := unvisitedCount_cons_lt cfg v r (lookupKey_mem _ _ _ hlk) hv
          omega
        exact ih (r :: v) cx e hmeas hcerr

/-- C1 counterexample: two `hasPermission` calls that share the decision
cache key `"u:x:"` but name different roles.  The second, memoized call
returns `true` although its evaluation on a fresh, empty cache returns
`false`. -/
theorem c1_counterexample :
    (outs ⟨⟨[("admin", ⟨["x"], none⟩), ("guest", ⟨[], none⟩)], none⟩, [], []⟩
        [Op.check ⟨"u", "admin"⟩ "x" none, Op.check ⟨"u", "guest"⟩ "x" none])[1]?
      = some (.ok (.allowed true)) ∧
    (hasPermission ⟨⟨[("admin", ⟨["x"], none⟩), ("guest", ⟨[], none⟩)], none⟩, [], []⟩
        ⟨"u", "guest"⟩ "x" none).1 = .ok false := by
  refine ⟨by decide, by decide⟩

/-- C1 amended: for every sequence of `hasPermission` and
`getPermissionsForRole` calls with no intervening mutation, provided any
two calls producing the same decision-cache key agree on user id, user
role and full permission key, every `hasPermission` call returns exactly
the result of its evaluation on a fresh, empty cache (the post-`clearCache`
baseline) — the memoized decision never differs from the uncached one. -/
theorem c1_amended_memoized_eq_fresh (cfg : Config) (ops : List Op)
    (hKC : KeyCoherent ops) (i : Nat) (u : User) (p : String) (c : Option String)
    (hop : ops[i]? = some (Op.check u p c)) :
    (outs ⟨cfg, [], []⟩ ops)[i]? =
      some ((hasPermission (clearCache ⟨cfg, [], []⟩) u p c).1.map OpResult.allowed) := by
  have hclear : clearCache ⟨cfg, [], []⟩ = (⟨cfg, [], []⟩ : PState) := rfl
  rw [hclear]
  exact outs_fresh_aux cfg ops hKC ops ⟨cfg, [], []⟩ (fun op ho => ho) rfl
    (RInv_nil cfg) (DInv_nil cfg ops) i u p c hop

/-- C1 amended witness: the second of two identical calls returns the
memoized bit, which equals the fresh decision. -/
theorem c1_amended_memoized_eq_fresh_witness :
    (outs ⟨⟨[("r", ⟨["x"], none⟩)], none⟩, [], []⟩
        [Op.check ⟨"u", "r"⟩ "x" none, Op.check ⟨"u", "r"⟩ "x" none])[1]?
      = some (.ok (.allowed true)) := by
  have hkc : KeyCoherent [Op.check ⟨"u", "r"⟩ "x" none, Op.check ⟨"u", "r"⟩ "x" none] := by
    intro u1 p1 c1 u2 p2 c2 h1 h2 _
    have e1 : Op.check u1 p1 c1 = Op.check ⟨"u", "r"⟩ "x" none := by
      rcases List.mem_cons.mp h1 with h | h
      · exact h
      · rcases List.mem_cons.mp h with h' | h'
        · exact h'
        · cases h'
    have e2 : Op.check u2 p2 c2 = Op.check ⟨"u", "r"⟩ "x" none := by
      rcases List.mem_cons.mp h2 with h | h
      · exact h
      · rcases List.mem_cons.mp h with h' | h'
        · exact h'
        · cases h'
    injection e1 with e1u e1p e1c
    injection e2 with e2u e2p e2c
    subst e1u
    subst e1p
    subst e1c
    subst e2u
    subst e2p
    subst e2c
    exact ⟨rfl, rfl, rfl⟩
  have h := c1_amended_memoized_eq_fresh ⟨[("r", ⟨["x"], none⟩)], none⟩
    [Op.check ⟨"u", "r"⟩ "x" none, Op.check ⟨"u", "r"⟩ "x" none] hkc 1
    ⟨"u", "r"⟩ "x" none (by decide)
  rw [h]
  decide

/-- C5 amended: starting from empty caches, and provided no role reachable
from the user's role lies on an inheritance cycle, `hasPermission` raises
a role-not-found error exactly when neither a deny-override nor a
grant-override pattern matches the key and the user's role or some role it
transitively inherits is absent from the configuration; the raised error
names such a reachable missing role and is never converted into `false`. -/
theorem c5_amended_roleNotFound_iff (cfg : Config) (u : User) (p : String)
    (c : Option String)
    (hacyc : ∀ m, Reach cfg u.role m → ¬ Relation.TransGen (edge cfg) m m) :
    ((∃ m, (hasPermission ⟨cfg, [], []⟩ u p c).1 = .error (.roleNotFound m)) ↔
      (denyMatch cfg u.id (fullPermOf p c) = false ∧
       grantMatch cfg u.id (fullPermOf p c) = false ∧
       ∃ m, Reach cfg u.role m ∧ lookupKey cfg.roles m = none)) ∧
    (∀ m, (hasPermission ⟨cfg, [], []⟩ u p c).1 = .error (.roleNotFound m) →
      Reach cfg u.role m ∧ lookupKey cfg.roles m = none) := by
  have heval := hasPermission_fresh_eval cfg u p c
  rcases hdeny : denyMatch cfg u.id (fullPermOf p c) with _ | _
  · rcases hgrant : grantMatch cfg u.id (fullPermOf p c) with _ | _
    · simp only [hdeny, hgrant, Bool.false_eq_true, if_false] at heval
      constructor
      · constructor
        · rintro ⟨m, hm⟩
          rw [heval] at hm
          rcases hNC : NCb cfg [] u.role with e | ps <;> rw [hNC] at hm
          · simp only [Except.map] at hm
            cases hm
            rcases NCb_err_notFound cfg (unvisitedCount cfg []) [] u.role m
              (le_refl _) hNC with ⟨hmiss, hreach⟩
            exact ⟨rfl, rfl, m, hreach, hmiss⟩
          · simp [Except.map] at hm
        · rintro ⟨_, _, m, hreach, hmiss⟩
          rcases hNC : NCb cfg [] u.role with e | ps
          · rcases NCb_err_kinds cfg (unvisitedCount cfg []) [] u.role e
              (le_refl _) hNC with ⟨m1, rfl⟩ | ⟨x, rfl⟩
            · refine ⟨m1, ?_⟩
              rw [heval, hNC]
              rfl
            · rcases NCb_err_circular cfg (unvisitedCount cfg []) [] u.role x
                (le_refl _) hNC with ⟨hrx, hcyc | hxin⟩
              · exact absurd hcyc (hacyc x hrx)
              · cases hxin
          · have := NCb_ok_present cfg [] u.role ps hNC m hreach
            rw [hmiss] at this
            cases this
      · intro m hm
        rw [heval] at hm
        rcases hNC : NCb cfg [] u.role with e | ps <;> rw [hNC] at hm
        · simp only [Except.map] at hm
          cases hm
          exact And.symm (NCb_err_notFound cfg (unvisitedCount cfg []) [] u.role m
            (le_refl _) hNC)
        · simp [Except.map] at hm
    · simp only [hdeny, hgrant, Bool.false_eq_true, if_false, if_true] at heval
      constructor
      · constructor
        · rintro ⟨m, hm⟩
          rw [heval] at hm
          cases hm
        · rintro ⟨_, hg, _⟩
          cases hg
      · intro m hm
        rw [heval] at hm
        cases hm
  · simp only [hdeny, if_true] at heval
    constructor
    · constructor
      · rintro ⟨m, hm⟩
        rw [heval] at hm
        cases hm
      · rintro ⟨hd, _, _⟩
        cases hd
    · intro m hm
      rw [heval] at hm
      cases hm

/-- C5 counterexample: role `a` inherits `[a, gone]` — the self-cycle is
detected before the missing role `gone` is reached, so although no
override matches and a transitively inherited role is absent, the call
raises the circular-inheritance error, not role-not-found. -/
theorem c5_counterexample :
    (hasPermission ⟨⟨[("a", ⟨[], some ["a", "gone"]⟩)], none⟩, [], []⟩
        ⟨"u", "a"⟩ "x" none).1 = .error (.circularInheritance "a") ∧
    denyMatch ⟨[("a", ⟨[], some ["a", "gone"]⟩)], none⟩ "u" (fullPermOf "x" none)
      = false ∧
    grantMatch ⟨[("a", ⟨[], some ["a", "gone"]⟩)], none⟩ "u" (fullPermOf "x" none)
      = false ∧
    Reach ⟨[("a", ⟨[], some ["a", "gone"]⟩)], none⟩ "a" "gone" ∧
    lookupKey (⟨[("a", ⟨[], some ["a", "gone"]⟩)], none⟩ : Config).roles "gone"
      = none ∧
    ¬ ∃ m, (hasPermission ⟨⟨[("a", ⟨[], some ["a", "gone"]⟩)], none⟩, [], []⟩
        ⟨"u", "a"⟩ "x" none).1 = .error (.roleNotFound m) := by
  refine ⟨by decide, by decide, by decide,
    Relation.ReflTransGen.single ⟨⟨[], some ["a", "gone"]⟩, by decide, by decide⟩,
    by decide, ?_⟩
  rintro ⟨m, hm⟩
  rw [show (hasPermission ⟨⟨[("a", ⟨[], some ["a", "gone"]⟩)], none⟩, [], []⟩
      ⟨"u", "a"⟩ "x" none).1 = .error (.circularInheritance "a") from by decide] at hm
  cases hm

/-- C5 amended witness: a role inheriting only a missing role. -/
theorem c5_amended_roleNotFound_iff_witness :
    ∃ m, (hasPermission ⟨⟨[("r", ⟨[], some ["gone"]⟩)], none⟩, [], []⟩
        ⟨"u", "r"⟩ "x" none).1 = .error (.roleNotFound m) := by
  have hacyc : ∀ m, Reach ⟨[("r", ⟨[], some ["gone"]⟩)], none⟩ "r" m →
      ¬ Relation.TransGen (edge ⟨[("r", ⟨[], some ["gone"]⟩)], none⟩) m m := by
    intro m _ hcyc
    rcases Relation.TransGen.head'_iff.mp hcyc with ⟨cnext, hmc, hcm⟩
    rcases hmc with ⟨role, hlk, hmem⟩
    have hm : m = "r" ∧ role = ⟨[], some ["gone"]⟩ := by
      by_cases h : "r" = m
      · refine ⟨h.symm, ?_⟩
        rw [lookupKey, if_pos h] at hlk
        cases hlk
        rfl
      · rw [lookupKey, if_neg h] at hlk
        simp [lookupKey] at hlk
    rcases hm with ⟨rfl, rfl⟩
    have hcn : cnext = "gone" := by simpa using hmem
    subst hcn
    rcases Relation.ReflTransGen.cases_head hcm with heq | ⟨d, hgd, _⟩
    · exact absurd heq (by decide)
    · rcases hgd with ⟨role2, hlk2, _⟩
      simp [lookupKey] at hlk2
  exact (c5_amended_roleNotFound_iff ⟨[("r", ⟨[], some ["gone"]⟩)], none⟩
      ⟨"u", "r"⟩ "x" none hacyc).1.mpr
    ⟨by decide, by decide, "gone",
      Relation.ReflTransGen.single ⟨⟨[], some ["gone"]⟩, by decide, by decide⟩,
      by decide⟩

/-- C6 amended: whenever roles `a` and `b` list each other in `inherits`
and every role reachable from `a` exists, resolving either role from an
empty cache raises a circular-inheritance error (naming the role at which
the cycle was detected); no permission set is returned for either role. -/
theorem c6_amended_cycle (cfg : Config) (a b : String) (ra rb : Role)
    (hla : lookupKey cfg.roles a = some ra) (hab : b ∈ ra.inherits.getD [])
    (hlb : lookupKey cfg.roles b = some rb) (hba : a ∈ rb.inherits.getD [])
    (hclosed : ∀ m, Reach cfg a m → (lookupKey cfg.roles m).isSome) :
    (∃ x, (getPermissionsForRole cfg [] a).1 = .error (.circularInheritance x)) ∧
    (∃ y, (getPermissionsForRole cfg [] b).1 = .error (.circularInheritance y)) := by
  have hedgeab : edge cfg a b := ⟨ra, hla, hab⟩
  have hedgeba : edge cfg b a := ⟨rb, hlb, hba⟩
  have hcyca : Relation.TransGen (edge cfg) a a :=
    Relation.TransGen.head hedgeab (Relation.TransGen.single hedgeba)
  have hcycb : Relation.TransGen (edge cfg) b b :=
    Relation.TransGen.head hedgeba (Relation.TransGen.single hedgeab)
  have hreachab : Reach cfg a b := Relation.ReflTransGen.single hedgeab
  have hclosedb : ∀ m, Reach cfg b m → (lookupKey cfg.roles m).isSome :=
    fun m hm => hclosed m (hreachab.trans hm)
  have key : ∀ z, Relation.TransGen (edge cfg) z z →
      (∀ m, Reach cfg z m → (lookupKey cfg.roles m).isSome) →
      ∃ x, (getPermissionsForRole cfg [] z).1 = .error (.circularInheritance x) := by
    intro z hcyc hcl
    have hfr := getRolePermissions_fresh cfg z
    rcases hNC : NCb cfg [] z with e | ps
    · rcases NCb_err_kinds cfg (unvisitedCount cfg []) [] z e
        (le_refl _) hNC with ⟨m, rfl⟩ | ⟨x, rfl⟩
      · rcases NCb_err_notFound cfg (unvisitedCount cfg []) [] z m
          (le_refl _) hNC with ⟨hmiss, hreach⟩
        have := hcl m hreach
        rw [hmiss] at this
        cases this
      · refine ⟨x, ?_⟩
        unfold getPermissionsForRole
        rw [hfr, hNC]
    · exact absurd hcyc (NCb_ok_no_cycle cfg [] z ps hNC)
  exact ⟨key a hcyca hclosed, key b hcycb hclosedb⟩

/-- C6 counterexample: `a` and `b` list each other in `inherits`, but `a`
also lists the missing role `x` before `b`, so resolution starting from
either role raises role-not-found, not circular-inheritance. -/
theorem c6_counterexample :
    lookupKey (⟨[("a", ⟨[], some ["x", "b"]⟩), ("b", ⟨[], some ["a"]⟩)], none⟩ :
        Config).roles "a" = some ⟨[], some ["x", "b"]⟩ ∧
    lookupKey (⟨[("a", ⟨[], some ["x", "b"]⟩), ("b", ⟨[], some ["a"]⟩)], none⟩ :
        Config).roles "b" = some ⟨[], some ["a"]⟩ ∧
    "b" ∈ (some ["x", "b"]).getD ([] : List String) ∧
    "a" ∈ (some ["a"]).getD ([] : List String) ∧
    (getPermissionsForRole
        ⟨[("a", ⟨[], some ["x", "b"]⟩), ("b", ⟨[], some ["a"]⟩)], none⟩ [] "a").1
      = .error (.roleNotFound "x") ∧
    (getPermissionsForRole
        ⟨[("a", ⟨[], some ["x", "b"]⟩), ("b", ⟨[], some ["a"]⟩)], none⟩ [] "b").1
      = .error (.roleNotFound "x") := by
  refine ⟨by decide, by decide, by decide, by decide, by decide, by decide⟩

/-- C6 amended witness: the pure two-role cycle. -/
theorem c6_amended_cycle_witness :
    (∃ x, (getPermissionsForRole
        ⟨[("a", ⟨[], some ["b"]⟩), ("b", ⟨[], some ["a"]⟩)], none⟩ [] "a").1
      = .error (.circularInheritance x)) ∧
    (∃ y, (getPermissionsForRole
        ⟨[("a", ⟨[], some ["b"]⟩), ("b", ⟨[], some ["a"]⟩)], none⟩ [] "b").1
      = .error (.circularInheritance y)) := by
  refine c6_amended_cycle ⟨[("a", ⟨[], some ["b"]⟩), ("b", ⟨[], some ["a"]⟩)], none⟩
    "a" "b" ⟨[], some ["b"]⟩ ⟨[], some ["a"]⟩ (by decide) (by decide) (by decide)
    (by decide) ?_
  intro m hm
  exact reach_present_of_closed
    ⟨[("a", ⟨[], some ["b"]⟩), ("b", ⟨[], some ["a"]⟩)], none⟩
    (by decide) "a" m (by decide) hm

/-- Demonstration configuration for C7: role `a` inherits the resolvable
role `b` and then the missing role `gone`. -/
def c7demoCfg : Config :=
  ⟨[("a", ⟨[], some ["b", "gone"]⟩), ("b", ⟨["pb"], none⟩)], none⟩

/-- C7: after any `getPermissionsForRole` call from a sound cache, every
cache entry maps its role to exactly that role's complete effective
permission set (the own permissions of all transitively inherited roles);
on success the resolved role is cached with the returned list; on failure
the failing role is left uncached; existing sound entries survive; and on
the demonstration configuration the failed resolution of `a` caches its
successfully resolved dependency `b` while leaving `a` uncached. -/
theorem c7_cache_integrity (cfg : Config) (cache : Cache) (r : String)
    (hR : RInv cfg cache) :
    (∀ k ps, lookupKey (getPermissionsForRole cfg cache r).2 k = some ps →
      NCb cfg [] k = .ok ps ∧
      ∀ q, q ∈ ps ↔ ∃ m, Reach cfg k m ∧
        ∃ role, lookupKey cfg.roles m = some role ∧ q ∈ role.permissions) ∧
    (∀ ps, (getPermissionsForRole cfg cache r).1 = .ok ps →
      lookupKey (getPermissionsForRole cfg cache r).2 r = some ps) ∧
    (∀ e, (getPermissionsForRole cfg cache r).1 = .error e →
      lookupKey (getPermissionsForRole cfg cache r).2 r = none) ∧
    (∀ k ps, lookupKey cache k = some ps →
      lookupKey (getPermissionsForRole cfg cache r).2 k = some ps) ∧
    ((getPermissionsForRole c7demoCfg [] "a").1 = .error (.roleNotFound "gone") ∧
      lookupKey (getPermissionsForRole c7demoCfg [] "a").2 "b" = some ["pb"] ∧
      lookupKey (getPermissionsForRole c7demoCfg [] "a").2 "a" = none) := by
  have hs := getRolePermissions_sound cfg cache r hR
  unfold getPermissionsForRole
  refine ⟨?_, hs.2.2.2.1, hs.2.2.2.2, hs.2.2.1, by decide, by decide, by decide⟩
  intro k ps hk
  have hfreshk : NCb cfg [] k = .ok ps := hs.2.1 k ps hk
  refine ⟨hfreshk, ?_⟩
  intro q
  exact NCb_mem cfg (unvisitedCount cfg []) [] k ps (le_refl _) hfreshk q

/-- C7 witness on the demonstration configuration. -/
theorem c7_cache_integrity_witness :
    lookupKey (getPermissionsForRole c7demoCfg [] "a").2 "a" = none :=
  (c7_cache_integrity c7demoCfg [] "a" (RInv_nil _)).2.2.1 (.roleNotFound "gone")
    (by decide)

end Permissionless
